import Mathlib

/-!
# rax-radix-tree: the `raxtree_*` layer of `src/radix_tree.c` and the Node wrapper

The C file `radix_tree.c` is a thin layer over the rax trie library
(`rax/rax.h`): it validates handles and buffers, stores an `int` payload in the
pointer-sized data slot of a key, and filters the steps of a rax iterator
against a caller-supplied reference buffer.  `rax_wrapper.cpp` exposes it to
JavaScript.

The functions of `radix_tree.c` and `rax_wrapper.cpp` are transcribed from the
source.  The rax library itself is not among the sources; the operations of it
that the layer calls are modelled from the specification as an ordered
key-to-payload mapping with a cursor.
-/

namespace RaxTree

/-! ## Keys, buffers and machine words -/

/-- A key is a finite sequence of bytes (`unsigned char`), one `Nat` per byte. -/
abbrev Key := List Nat

/-- A pointer-sized slot (`void *`, 64 bits wide). -/
abbrev Ptr := Nat

/-- The null pointer. -/
def NULL : Ptr := 0

/-- The type `rt_str_t` of `radix_tree.h`: a length and a buffer pointer.
`buf = none` is the null pointer, `buf = some bs` points at the bytes `bs`. -/
structure rt_str_t where
  len : Nat
  buf : Option (List Nat)
deriving DecidableEq, Repr

/-- The `len` bytes an `rt_str_t` designates (what `buf->buf, buf->len` passes on). -/
def rt_str_t.bytes (s : rt_str_t) : Key := (s.buf.getD []).take s.len

/-- The `rt_str_t` the wrapper builds from a string: `path.buf = key.c_str()`,
`path.len = key.length()`; the buffer pointer is never null. -/
def mkStr (s : List Nat) : rt_str_t := { len := s.length, buf := some s }

/-- Smallest value of the C type `int` (32 bits). -/
def INT_MIN : Int := -2147483648

/-- Largest value of the C type `int` (32 bits). -/
def INT_MAX : Int := 2147483647

/-- The cast `(void *)(intptr_t)idx`: sign extension of an `int` to the 64-bit
slot, kept as the unsigned bit pattern. -/
def intToPtr (idx : Int) : Ptr := (idx % 2 ^ 64).toNat

/-- The cast `(intptr_t)p`: the bit pattern of a pointer read as a signed
64-bit integer. -/
def ptrToIntptr (p : Ptr) : Int :=
  if p % 2 ^ 64 < 2 ^ 63 then ((p % 2 ^ 64 : Nat) : Int)
  else ((p % 2 ^ 64 : Nat) : Int) - 2 ^ 64

/-- The cast `(int)x` of an `intptr_t`: reduction modulo `2 ^ 32` into the
range of `int`. -/
def intptrToInt (x : Int) : Int := (x + 2 ^ 31) % 2 ^ 32 - 2 ^ 31

/-- The cast `(int)(intptr_t)p` used by `raxtree_next`, `raxtree_prev`,
`raxtree_up` and by `RadixTree::Find`. -/
def ptrToInt (p : Ptr) : Int := intptrToInt (ptrToIntptr p)

/-- Byte-lexicographic strict order on keys: a strict prefix sorts before its
extensions, otherwise the first differing byte decides. -/
def keyLt : Key → Key → Bool
  | [], [] => false
  | [], _ :: _ => true
  | _ :: _, [] => false
  | a :: as, b :: bs => decide (a < b) || (decide (a = b) && keyLt as bs)

/-- The libc function `memcmp(s1, s2, n)`: sign of the first differing byte
among the first `n`, `0` when they agree.  Reading past the end of a buffer is
outside C's defined behaviour; the callers below never do. -/
def memcmp : List Nat → List Nat → Nat → Int
  | _, _, 0 => 0
  | a :: as, b :: bs, n + 1 =>
    if a < b then -1 else if b < a then 1 else memcmp as bs n
  | [], _ :: _, _ + 1 => -1
  | _ :: _, [], _ + 1 => 1
  | [], [], _ + 1 => 0

/-! ## The rax library, modelled from the specification -/

/-- Modelled from the spec: the trie type `rax` of the rax library
(`rax/rax.h`, not among the sources).  The spec describes it as "an ordered
mapping from arbitrary byte-string keys to small integer payloads"; it is kept
here as the list of (key, payload slot) pairs in ascending key order. -/
abbrev rax := List (Key × Ptr)

/-- Modelled from the spec: the data-model invariant of `rax` (library not
among the sources): keys are stored in strictly ascending byte-lexicographic
order, so "a payload is associated with exactly one key at a time". -/
def rax.ordered (t : rax) : Prop :=
  t.Pairwise (fun a b => keyLt a.1 b.1 = true)

/-- Modelled from the spec: `raxNew` (rax library, not among the sources),
"Create() → empty trie". -/
def raxNew : rax := []

/-- Modelled from the spec: `raxInsert` (rax library, not among the sources).
"Insert(key, payload)" sets the payload at the key, "overwriting if the key
already existed", and returns "a signal distinguishing new key from payload
replaced": `1` for a new key, `0` for a replaced payload. -/
def raxInsert : rax → Key → Ptr → Int × rax
  | [], k, d => (1, [(k, d)])
  | (k', d') :: rest, k, d =>
    if keyLt k k' then (1, (k, d) :: (k', d') :: rest)
    else if k = k' then (0, (k, d) :: rest)
    else ((raxInsert rest k d).1, (k', d') :: (raxInsert rest k d).2)

/-- Modelled from the spec: `raxFind` (rax library, not among the sources).
"Find(key)" "returns the payload if a terminal node exactly matching key is
reached, otherwise reports not-found"; `none` stands for the library's
`raxNotFound` token. -/
def raxFind : rax → Key → Option Ptr
  | [], _ => none
  | (k', d') :: rest, k => if k = k' then some d' else raxFind rest k

/-- Modelled from the spec: `raxRemove` (rax library, not among the sources).
"Remove(key)" "locates the exact node for key; if absent, reports not-found
(non-fatal, no mutation)"; otherwise the key is deleted.  It returns `1` when
the key was removed and `0` when it was absent. -/
def raxRemove (t : rax) (k : Key) : Int × rax :=
  if t.any (fun e => decide (e.1 = k)) then (1, t.filter (fun e => !decide (e.1 = k)))
  else (0, t)

/-- Modelled from the spec: the position of a cursor (rax library, not among
the sources): "before the first key", on a stored key together with "a
reference to the payload at the current node", or after the last key. -/
inductive raxPos where
  | beforeFirst
  | onKey (key : Key) (data : Ptr)
  | afterLast
deriving DecidableEq, Repr

/-- Modelled from the spec: `raxIterator` (rax library, not among the
sources): a cursor "bound to one engine instance" with its traversal
position. -/
structure raxIterator where
  rt : rax
  pos : raxPos
deriving DecidableEq, Repr

/-- The field `iter->key` (empty when the cursor is on no key). -/
def raxIterator.key (it : raxIterator) : Key :=
  match it.pos with
  | .onKey k _ => k
  | _ => []

/-- The field `iter->key_len`. -/
def raxIterator.key_len (it : raxIterator) : Nat := it.key.length

/-- The field `iter->data` (null when the cursor is on no key). -/
def raxIterator.data (it : raxIterator) : Ptr :=
  match it.pos with
  | .onKey _ d => d
  | _ => NULL

/-- Modelled from the spec: whether a key lies strictly below a cursor
position in byte-lexicographic order (rax library, not among the sources);
every key is above "before first" and below "after last". -/
def keyBelow : raxPos → Key → Bool
  | .beforeFirst, _ => false
  | .onKey c _, k => keyLt k c
  | .afterLast, _ => true

/-- Modelled from the spec: whether a key lies strictly above a cursor
position in byte-lexicographic order (rax library, not among the sources). -/
def keyAbove : raxPos → Key → Bool
  | .beforeFirst, _ => true
  | .onKey c _, k => keyLt c k
  | .afterLast, _ => false

/-- Modelled from the spec: the entries of a trie that lie strictly below a
cursor position, in ascending order (rax library, not among the sources). -/
def entriesBelow (t : rax) (p : raxPos) : List (Key × Ptr) :=
  t.filter (fun e => keyBelow p e.1)

/-- Modelled from the spec: the entries of a trie that lie strictly above a
cursor position, in ascending order (rax library, not among the sources). -/
def entriesAbove (t : rax) (p : raxPos) : List (Key × Ptr) :=
  t.filter (fun e => keyAbove p e.1)

/-- Modelled from the spec: `raxSeek(it, "<=", ele, len)` (rax library, not
among the sources).  "SeekAtMost(referenceKey)" "positions the cursor at the
lexicographically greatest key that is ≤ referenceKey (if no such key exists,
the cursor becomes positioned before the first key)". -/
def raxSeek (it : raxIterator) (ele : Key) : raxIterator :=
  match (it.rt.filter (fun e => !keyLt ele e.1)).getLast? with
  | some e => { it with pos := .onKey e.1 e.2 }
  | none => { it with pos := .beforeFirst }

/-- Modelled from the spec: `raxNext` (rax library, not among the sources).
"Next" "advances the cursor to the lexicographic successor of its current
key"; it returns `1` then, and `0` with the cursor after the last key when "no
successor exists". -/
def raxNext (it : raxIterator) : Int × raxIterator :=
  match (entriesAbove it.rt it.pos).head? with
  | some e => (1, { it with pos := .onKey e.1 e.2 })
  | none => (0, { it with pos := .afterLast })

/-- Modelled from the spec: `raxPrev` (rax library, not among the sources).
"Prev" "moves to the lexicographic predecessor"; it returns `1` then, and `0`
with the cursor before the first key when "no predecessor remains". -/
def raxPrev (it : raxIterator) : Int × raxIterator :=
  match (entriesBelow it.rt it.pos).getLast? with
  | some e => (1, { it with pos := .onKey e.1 e.2 })
  | none => (0, { it with pos := .beforeFirst })

/-- Modelled from the spec: the terminal ancestors of a cursor position (rax
library, not among the sources): the stored keys that are strict prefixes of
the current key, nearest the root first.  A cursor on no key has none. -/
def terminalAncestors (t : rax) : raxPos → List (Key × Ptr)
  | .onKey k _ => t.filter (fun e => decide (e.1 <+: k) && decide (e.1.length < k.length))
  | _ => []

/-- Modelled from the spec: `raxUp` (rax library, not among the sources).
"Up" "moves the cursor to successive ancestor nodes (toward the root) along
its current path, skipping ancestors that are not terminal"; it returns `1` on
the nearest terminal ancestor, and `0` with the cursor on no key when "the root
is exhausted". -/
def raxUp (it : raxIterator) : Int × raxIterator :=
  match (terminalAncestors it.rt it.pos).getLast? with
  | some e => (1, { it with pos := .onKey e.1 e.2 })
  | none => (0, { it with pos := .beforeFirst })

/-! ## `radix_tree.c` -/

/-- The function `raxtree_new` of `radix_tree.c`. -/
def raxtree_new : Option rax := some raxNew

/-- The function `raxtree_insert` of `radix_tree.c`.  A handle is `none` when
the pointer is null; the result is the returned `int` and the trie afterwards. -/
def raxtree_insert (t : Option rax) (buf : Option rt_str_t) (idx : Int) :
    Int × Option rax :=
  let data := intToPtr idx
  match t with
  | none => (-1, t)
  | some tree =>
    match buf with
    | none => (-2, t)
    | some b =>
      match b.buf with
      | none => (-2, t)
      | some bytes =>
        ((raxInsert tree (bytes.take b.len) data).1,
          some (raxInsert tree (bytes.take b.len) data).2)

/-- The function `raxtree_remove` of `radix_tree.c`. -/
def raxtree_remove (t : Option rax) (buf : Option rt_str_t) : Int × Option rax :=
  match t with
  | none => (-1, t)
  | some tree =>
    match buf with
    | none => (-2, t)
    | some b =>
      match b.buf with
      | none => (-2, t)
      | some bytes =>
        ((raxRemove tree (bytes.take b.len)).1, some (raxRemove tree (bytes.take b.len)).2)

/-- The function `raxtree_find` of `radix_tree.c`: the stored slot, or the
null pointer when the library reports `raxNotFound`. -/
def raxtree_find (t : Option rax) (buf : Option rt_str_t) : Ptr :=
  match t with
  | none => NULL
  | some tree =>
    match buf with
    | none => NULL
    | some b =>
      match b.buf with
      | none => NULL
      | some bytes =>
        match raxFind tree (bytes.take b.len) with
        | none => NULL
        | some res => res

/-- The function `raxtree_search` of `radix_tree.c`: seeks with `"<="` and
hands the iterator back; null iterator in, null out. -/
def raxtree_search (_t : Option rax) (it : Option raxIterator) (buf : rt_str_t) :
    Option raxIterator :=
  match it with
  | none => none
  | some iter => some (raxSeek iter buf.bytes)

/-- The test shared by `raxtree_next`, `raxtree_prev` and `raxtree_up`:
`iter->key_len > buf->len || memcmp(buf->buf, iter->key, iter->key_len) != 0`. -/
def refMismatch (iter : raxIterator) (buf : rt_str_t) : Bool :=
  decide (iter.key_len > buf.len) ||
    decide (memcmp (buf.buf.getD []) iter.key iter.key_len ≠ 0)

/-- The function `raxtree_next` of `radix_tree.c`: the returned `int` and the
iterator afterwards. -/
def raxtree_next (it : raxIterator) (buf : rt_str_t) : Int × raxIterator :=
  let r := raxNext it
  if r.1 = 0 then (-1, r.2)
  else if refMismatch r.2 buf then (-1, r.2)
  else (ptrToInt r.2.data, r.2)

/-- The `while (1)` loop of `raxtree_prev`, run for at most `fuel` iterations;
`none` when the iterations are used up before a `return`. -/
def raxtree_prev_loop : Nat → raxIterator → rt_str_t → Option (Int × raxIterator)
  | 0, _, _ => none
  | fuel + 1, it, buf =>
    let r := raxPrev it
    if r.1 = 0 then some (-1, r.2)
    else if refMismatch r.2 buf then raxtree_prev_loop fuel r.2 buf
    else some (ptrToInt r.2.data, r.2)

/-- The function `raxtree_prev` of `radix_tree.c`; the loop gets one iteration
per stored key and one more, which is always enough. -/
def raxtree_prev (it : raxIterator) (buf : rt_str_t) : Int × raxIterator :=
  (raxtree_prev_loop (it.rt.length + 1) it buf).getD (-1, it)

/-- The `while (1)` loop of `raxtree_up`, run for at most `fuel` iterations. -/
def raxtree_up_loop : Nat → raxIterator → rt_str_t → Option (Int × raxIterator)
  | 0, _, _ => none
  | fuel + 1, it, buf =>
    let r := raxUp it
    if r.1 = 0 then some (-1, r.2)
    else if refMismatch r.2 buf then raxtree_up_loop fuel r.2 buf
    else some (ptrToInt r.2.data, r.2)

/-- The function `raxtree_up` of `radix_tree.c`; the loop gets one iteration
per byte of the current key and one more. -/
def raxtree_up (it : raxIterator) (buf : rt_str_t) : Int × raxIterator :=
  (raxtree_up_loop (it.key_len + 1) it buf).getD (-1, it)

/-! ## `rax_wrapper.cpp` -/

/-- The method `RadixTree::Find` of `rax_wrapper.cpp` on a key string:
`none` is JavaScript `null`, `some n` the number returned. -/
def RadixTree_Find (tree : Option rax) (key : List Nat) : Option Int :=
  let result := raxtree_find tree (some (mkStr key))
  if result = NULL then none else some (ptrToInt result)

/-! ## Vocabulary of the properties -/

/-- The trie after a sequence of `raxtree_insert` calls, oldest first. -/
def insertAll (t : Option rax) : List (Option rt_str_t × Int) → Option rax
  | [] => t
  | op :: ops => insertAll (raxtree_insert t op.1 op.2).2 ops

/-- The values returned by `n` successive calls of `raxtree_next` with the
same reference buffer. -/
def nextRun : Nat → raxIterator → rt_str_t → List Int
  | 0, _, _ => []
  | n + 1, it, buf => (raxtree_next it buf).1 :: nextRun n (raxtree_next it buf).2 buf

/-- The values returned by `n` successive calls of `raxtree_prev` with the
same reference buffer. -/
def prevRun : Nat → raxIterator → rt_str_t → List Int
  | 0, _, _ => []
  | n + 1, it, buf => (raxtree_prev it buf).1 :: prevRun n (raxtree_prev it buf).2 buf

/-- The values returned by `n` successive calls of `raxtree_next` with the
same reference buffer, each with the position the call leaves the cursor on. -/
def nextSteps : Nat → raxIterator → rt_str_t → List (Int × raxPos)
  | 0, _, _ => []
  | n + 1, it, buf =>
    ((raxtree_next it buf).1, (raxtree_next it buf).2.pos)
      :: nextSteps n (raxtree_next it buf).2 buf

/-- The values returned by `n` successive calls of `raxtree_prev` with the
same reference buffer, each with the position the call leaves the cursor on. -/
def prevSteps : Nat → raxIterator → rt_str_t → List (Int × raxPos)
  | 0, _, _ => []
  | n + 1, it, buf =>
    ((raxtree_prev it buf).1, (raxtree_prev it buf).2.pos)
      :: prevSteps n (raxtree_prev it buf).2 buf

/-- The entry `e` is the lexicographic successor of position `p` in `t`: the
stored key above `p` that no other stored key above `p` precedes. -/
def IsSuccessor (t : rax) (p : raxPos) (e : Key × Ptr) : Prop :=
  e ∈ t ∧ keyAbove p e.1 = true ∧
    ∀ e' ∈ t, keyAbove p e'.1 = true → e'.1 = e.1 ∨ keyLt e.1 e'.1 = true

/-- The entry `e` is the greatest stored key below position `p` that is a
byte-prefix of the reference `ref`. -/
def IsNearestBelow (t : rax) (p : raxPos) (ref : List Nat) (e : Key × Ptr) : Prop :=
  e ∈ t ∧ keyBelow p e.1 = true ∧ e.1 <+: ref ∧
    ∀ e' ∈ t, keyBelow p e'.1 = true → e'.1 <+: ref → e'.1 = e.1 ∨ keyLt e'.1 e.1 = true

/-- A step call ended on a key that holds the `int` payload `v` and passes the
reference test: the case in which the stored payload is returned. -/
def landsOn (r : Int × raxIterator) (buf : rt_str_t) (v : Int) : Prop :=
  ∃ k, r.2.pos = .onKey k (intToPtr v) ∧ refMismatch r.2 buf = false

/-- A step call ended without a key that passes the reference test: the case
in which the step reports exhausted. -/
def stepExhausted (r : Int × raxIterator) (buf : rt_str_t) : Prop :=
  ¬ ∃ k d, r.2.pos = .onKey k d ∧ refMismatch r.2 buf = false

/-! ## Casts, key order and the reference test -/

theorem ptrToInt_intToPtr (v : Int) (hlo : INT_MIN ≤ v) (hhi : v ≤ INT_MAX) :
    ptrToInt (intToPtr v) = v := by
  unfold ptrToInt intptrToInt ptrToIntptr intToPtr INT_MIN INT_MAX at *
  split <;> omega

theorem intToPtr_ne_null (v : Int) (hlo : INT_MIN ≤ v) (hhi : v ≤ INT_MAX) (hv : v ≠ 0) :
    intToPtr v ≠ NULL := by
  unfold INT_MIN INT_MAX at *
  show (v % 2 ^ 64).toNat ≠ (0 : Nat)
  omega

theorem keyLt_irrefl (a : Key) : keyLt a a = false := by
  induction a with
  | nil => rfl
  | cons x xs ih => simp [keyLt, ih]

theorem keyLt_trans : ∀ (a b c : Key), keyLt a b = true → keyLt b c = true → keyLt a c = true
  | [], [], _, h, _ => by simp [keyLt] at h
  | [], _ :: _, [], _, h => by simp [keyLt] at h
  | [], _ :: _, _ :: _, _, _ => by simp [keyLt]
  | _ :: _, [], _, h, _ => by simp [keyLt] at h
  | _ :: _, _ :: _, [], _, h => by simp [keyLt] at h
  | x :: xs, y :: ys, z :: zs, h1, h2 => by
    simp only [keyLt, Bool.or_eq_true, Bool.and_eq_true, decide_eq_true_eq] at h1 h2 ⊢
    rcases h1 with h1 | ⟨h1, h1'⟩
    · rcases h2 with h2 | ⟨h2, _⟩
      · left; omega
      · left; omega
    · rcases h2 with h2 | ⟨h2, h2'⟩
      · left; omega
      · right; exact ⟨by omega, keyLt_trans xs ys zs h1' h2'⟩

theorem keyLt_total : ∀ (a b : Key), keyLt a b = true ∨ a = b ∨ keyLt b a = true
  | [], [] => by simp
  | [], _ :: _ => by simp [keyLt]
  | _ :: _, [] => by simp [keyLt]
  | x :: xs, y :: ys => by
    simp only [keyLt, Bool.or_eq_true, Bool.and_eq_true, decide_eq_true_eq, List.cons.injEq]
    rcases Nat.lt_trichotomy x y with h | h | h
    · left; left; exact h
    · rcases keyLt_total xs ys with h' | h' | h'
      · left; right; exact ⟨h, h'⟩
      · right; left; exact ⟨h, h'⟩
      · right; right; right; exact ⟨h.symm, h'⟩
    · right; right; left; exact h

theorem keyLt_asymm (a b : Key) (h : keyLt a b = true) : keyLt b a = false := by
  cases hba : keyLt b a with
  | false => rfl
  | true =>
    have := keyLt_trans a b a h hba
    rw [keyLt_irrefl] at this
    exact absurd this (by simp)

theorem memcmp_eq_zero_iff : ∀ (ref key : List Nat), key.length ≤ ref.length →
    (memcmp ref key key.length = 0 ↔ key <+: ref)
  | _, [], _ => by simp [memcmp]
  | [], _ :: _, h => by simp at h
  | r :: rs, k :: ks, h => by
    have ih := memcmp_eq_zero_iff rs ks (by simpa using h)
    simp only [List.length_cons, memcmp]
    rw [List.cons_prefix_cons]
    by_cases h1 : r < k
    · simp [h1]; omega
    · by_cases h2 : k < r
      · simp [h1, h2]; omega
      · have : k = r := by omega
        simp [h1, h2, ih, this]

theorem refMismatch_mkStr (it : raxIterator) (ref : List Nat) :
    refMismatch it (mkStr ref) = false ↔ it.key <+: ref := by
  unfold refMismatch mkStr raxIterator.key_len
  simp only [Bool.or_eq_false_iff, decide_eq_false_iff_not, Option.getD_some, not_lt, ne_eq, not_not]
  constructor
  · rintro ⟨h1, h2⟩
    exact (memcmp_eq_zero_iff ref it.key h1).1 h2
  · intro h
    exact ⟨h.length_le, (memcmp_eq_zero_iff ref it.key h.length_le).2 h⟩

/-! ## Insert, find and remove on the modelled trie -/

theorem raxFind_raxInsert_self (t : rax) (k : Key) (d : Ptr) :
    raxFind (raxInsert t k d).2 k = some d := by
  induction t with
  | nil => simp [raxInsert, raxFind]
  | cons e rest ih =>
    obtain ⟨k', d'⟩ := e
    unfold raxInsert
    by_cases h1 : keyLt k k' = true
    · simp [h1, raxFind]
    · by_cases h2 : k = k'
      · subst h2
        simp [keyLt_irrefl, raxFind]
      · simp [h1, h2, raxFind, ih]

theorem raxFind_raxInsert_other (t : rax) (k k2 : Key) (d : Ptr) (hne : k2 ≠ k) :
    raxFind (raxInsert t k d).2 k2 = raxFind t k2 := by
  induction t with
  | nil => simp [raxInsert, raxFind, hne]
  | cons e rest ih =>
    obtain ⟨k', d'⟩ := e
    unfold raxInsert
    by_cases h1 : keyLt k k' = true
    · simp [h1, raxFind, hne]
    · by_cases h2 : k = k'
      · subst h2
        simp [h1, raxFind, hne]
      · simp [h1, h2, raxFind, ih]

theorem raxFind_filter_self (t : rax) (k : Key) :
    raxFind (t.filter (fun e => !decide (e.1 = k))) k = none := by
  induction t with
  | nil => simp [raxFind]
  | cons e rest ih =>
    by_cases h : e.1 = k
    · simp [List.filter_cons, h, ih]
    · have h' : ¬ k = e.1 := fun hh => h hh.symm
      simp [List.filter_cons, h, raxFind, h', ih]

theorem raxFind_filter_other (t : rax) (k k2 : Key) (hne : k2 ≠ k) :
    raxFind (t.filter (fun e => !decide (e.1 = k))) k2 = raxFind t k2 := by
  induction t with
  | nil => simp [raxFind]
  | cons e rest ih =>
    by_cases h : e.1 = k
    · have h' : ¬ k2 = e.1 := fun hh => hne (hh.trans h)
      simp [List.filter_cons, h, raxFind, h', ih, hne]
    · simp [List.filter_cons, h, raxFind, ih]

theorem raxFind_eq_none_iff (t : rax) (k : Key) :
    raxFind t k = none ↔ t.any (fun e => decide (e.1 = k)) = false := by
  induction t with
  | nil => simp [raxFind]
  | cons e rest ih =>
    by_cases h : k = e.1
    · simp [raxFind, h]
    · have h' : ¬ e.1 = k := fun hh => h hh.symm
      simp only [raxFind, h, if_false, ih, List.any_cons, h', decide_False, Bool.false_or]

theorem insertAll_some (t : rax) (ops : List (Option rt_str_t × Int)) :
    ∃ t', insertAll (some t) ops = some t' := by
  induction ops generalizing t with
  | nil => exact ⟨t, rfl⟩
  | cons op ops ih =>
    obtain ⟨b, v⟩ := op
    unfold insertAll raxtree_insert
    cases b with
    | none => exact ih t
    | some b =>
      obtain ⟨len, buf⟩ := b
      cases buf with
      | none => exact ih t
      | some bytes => exact ih _

theorem insertAll_append (t : Option rax) (xs ys : List (Option rt_str_t × Int)) :
    insertAll t (xs ++ ys) = insertAll (insertAll t xs) ys := by
  induction xs generalizing t with
  | nil => rfl
  | cons op xs ih => simp [insertAll, ih]

theorem raxtree_find_some (t : rax) (b : rt_str_t) (hb : b.buf ≠ none) :
    raxtree_find (some t) (some b) = (raxFind t b.bytes).getD NULL := by
  obtain ⟨len, buf⟩ := b
  cases buf with
  | none => exact absurd rfl hb
  | some bytes =>
    simp only [raxtree_find, rt_str_t.bytes, Option.getD_some]
    cases h : raxFind t (List.take len bytes) <;> simp

theorem raxtree_insert_some (t : rax) (b : rt_str_t) (hb : b.buf ≠ none) (v : Int) :
    raxtree_insert (some t) (some b) v =
      ((raxInsert t b.bytes (intToPtr v)).1, some (raxInsert t b.bytes (intToPtr v)).2) := by
  obtain ⟨len, buf⟩ := b
  cases buf with
  | none => exact absurd rfl hb
  | some bytes => simp [raxtree_insert, rt_str_t.bytes]

theorem raxtree_remove_some (t : rax) (b : rt_str_t) (hb : b.buf ≠ none) :
    raxtree_remove (some t) (some b) =
      ((raxRemove t b.bytes).1, some (raxRemove t b.bytes).2) := by
  obtain ⟨len, buf⟩ := b
  cases buf with
  | none => exact absurd rfl hb
  | some bytes => simp [raxtree_remove, rt_str_t.bytes]

/-- Inserts of other keys, and rejected inserts, leave the slot of a key alone. -/
theorem raxFind_insertAll_other (t : rax) (k : Key) (ops : List (Option rt_str_t × Int))
    (hops : ∀ op ∈ ops, ∀ b, op.1 = some b → b.buf ≠ none → b.bytes ≠ k) :
    ∀ t', insertAll (some t) ops = some t' → raxFind t' k = raxFind t k := by
  induction ops generalizing t with
  | nil =>
    intro t' h
    simp [insertAll] at h
    rw [h]
  | cons op ops ih =>
    obtain ⟨b, v⟩ := op
    intro t' h
    have hrest : ∀ op ∈ ops, ∀ b, op.1 = some b → b.buf ≠ none → b.bytes ≠ k :=
      fun op hop => hops op (List.mem_cons_of_mem _ hop)
    unfold insertAll at h
    cases b with
    | none =>
      simp only [raxtree_insert] at h
      exact ih t hrest t' h
    | some b =>
      by_cases hb : b.buf = none
      · simp only [raxtree_insert, hb] at h
        exact ih t hrest t' h
      · rw [raxtree_insert_some t b hb] at h
        have hk : k ≠ b.bytes := fun hh =>
          hops (some b, v) (List.mem_cons_self _ _) b rfl hb hh.symm
        rw [ih _ hrest t' h, raxFind_raxInsert_other _ _ _ _ hk]

theorem mkStr_bytes (k : List Nat) : (mkStr k).bytes = k := by
  simp [mkStr, rt_str_t.bytes]

theorem raxInsert_signal (t : rax) (k : Key) (d : Ptr) :
    (raxInsert t k d).1 = 0 ∨ (raxInsert t k d).1 = 1 := by
  induction t with
  | nil => simp [raxInsert]
  | cons e rest ih =>
    obtain ⟨k', d'⟩ := e
    unfold raxInsert
    by_cases h1 : keyLt k k' = true
    · simp [h1]
    · by_cases h2 : k = k'
      · subst h2
        simp [keyLt_irrefl]
      · simpa [h1, h2] using ih

/-! ## Round trip, presence and removal -/

/-- C1. Round trip: after any sequence of `raxtree_insert` calls on a live trie
whose last insert for the key `k` (non-null buffer) stores the `int` payload
`v`, `raxtree_find` on `k` returns the slot holding `v`, and the cast back to
`int` gives `v` unchanged. -/
theorem insert_find_round_trip (t : rax) (pre post : List (Option rt_str_t × Int))
    (kb : rt_str_t) (v : Int) (hb : kb.buf ≠ none)
    (hlo : INT_MIN ≤ v) (hhi : v ≤ INT_MAX)
    (hpost : ∀ op ∈ post, ∀ b, op.1 = some b → b.buf ≠ none → b.bytes ≠ kb.bytes) :
    raxtree_find (insertAll (some t) (pre ++ (some kb, v) :: post)) (some kb) = intToPtr v ∧
      ptrToInt (raxtree_find (insertAll (some t) (pre ++ (some kb, v) :: post)) (some kb))
        = v := by
  obtain ⟨t1, h1⟩ := insertAll_some t pre
  obtain ⟨t2, h2⟩ := insertAll_some (raxInsert t1 kb.bytes (intToPtr v)).2 post
  have hfinal : insertAll (some t) (pre ++ (some kb, v) :: post) = some t2 := by
    rw [insertAll_append, h1]
    show insertAll (raxtree_insert (some t1) (some kb) v).2 post = some t2
    rw [raxtree_insert_some t1 kb hb]
    exact h2
  have hfind : raxFind t2 kb.bytes = some (intToPtr v) := by
    rw [raxFind_insertAll_other _ kb.bytes post hpost t2 h2]
    exact raxFind_raxInsert_self t1 kb.bytes (intToPtr v)
  have hres : raxtree_find (some t2) (some kb) = intToPtr v := by
    rw [raxtree_find_some t2 kb hb, hfind]
    rfl
  rw [hfinal, hres]
  exact ⟨rfl, ptrToInt_intToPtr v hlo hhi⟩

theorem insert_find_round_trip_witness :
    raxtree_find (insertAll (some raxNew)
        ([(some (mkStr [97]), 5), (some (mkStr [97, 98]), 0)] ++
          (some (mkStr [97]), -7) :: [(some (mkStr [98]), 9), (none, 1)]))
        (some (mkStr [97])) = intToPtr (-7) ∧
      ptrToInt (raxtree_find (insertAll (some raxNew)
        ([(some (mkStr [97]), 5), (some (mkStr [97, 98]), 0)] ++
          (some (mkStr [97]), -7) :: [(some (mkStr [98]), 9), (none, 1)]))
        (some (mkStr [97]))) = -7 :=
  insert_find_round_trip raxNew [(some (mkStr [97]), 5), (some (mkStr [97, 98]), 0)]
    [(some (mkStr [98]), 9), (none, 1)] (mkStr [97]) (-7) (by decide) (by decide) (by decide)
    (by
      intro op hop b hb _
      simp only [List.mem_cons, List.mem_singleton, List.not_mem_nil, or_false] at hop
      rcases hop with rfl | rfl
      · cases hb
        decide
      · cases hb)

/-- C2 fails for the payload `0`: `raxtree_find` returns the null pointer both
for the key `"x"` stored with payload `0` and for `"x"` absent, and
`RadixTree::Find` returns `null` for both. -/
theorem find_zero_payload_is_null :
    raxFind (raxInsert raxNew [120] (intToPtr 0)).2 [120] = some (intToPtr 0) ∧
      raxFind raxNew [120] = none ∧
      raxtree_find (raxtree_insert raxtree_new (some (mkStr [120])) 0).2 (some (mkStr [120]))
        = raxtree_find raxtree_new (some (mkStr [120])) ∧
      RadixTree_Find (raxtree_insert raxtree_new (some (mkStr [120])) 0).2 [120]
        = RadixTree_Find raxtree_new [120] := by
  decide

/-- C2, amended. For every `int` payload `v` other than `0`: when the key is
stored with payload `v`, `raxtree_find` returns the non-null slot of `v` and
`RadixTree::Find` the number `v`; when the key is not stored they return the
null pointer and `null`; so the results differ. -/
theorem find_distinguishes_nonzero (t1 t0 : rax) (kb : rt_str_t) (v : Int)
    (hb : kb.buf ≠ none) (hlo : INT_MIN ≤ v) (hhi : v ≤ INT_MAX) (hv : v ≠ 0)
    (hstored : raxFind t1 kb.bytes = some (intToPtr v))
    (habsent : raxFind t0 kb.bytes = none) :
    raxtree_find (some t1) (some kb) = intToPtr v ∧
      raxtree_find (some t0) (some kb) = NULL ∧
      raxtree_find (some t1) (some kb) ≠ raxtree_find (some t0) (some kb) ∧
      RadixTree_Find (some t1) kb.bytes = some v ∧
      RadixTree_Find (some t0) kb.bytes = none ∧
      RadixTree_Find (some t1) kb.bytes ≠ RadixTree_Find (some t0) kb.bytes := by
  have hne := intToPtr_ne_null v hlo hhi hv
  have h1 : raxtree_find (some t1) (some kb) = intToPtr v := by
    rw [raxtree_find_some t1 kb hb, hstored]; rfl
  have h0 : raxtree_find (some t0) (some kb) = NULL := by
    rw [raxtree_find_some t0 kb hb, habsent]; rfl
  have hm : (mkStr kb.bytes).buf ≠ none := by simp [mkStr]
  have w1 : RadixTree_Find (some t1) kb.bytes = some v := by
    unfold RadixTree_Find
    rw [raxtree_find_some t1 _ hm, mkStr_bytes, hstored]
    simp [hne, ptrToInt_intToPtr v hlo hhi]
  have w0 : RadixTree_Find (some t0) kb.bytes = none := by
    unfold RadixTree_Find
    rw [raxtree_find_some t0 _ hm, mkStr_bytes, habsent]
    simp
  refine ⟨h1, h0, ?_, w1, w0, ?_⟩
  · rw [h1, h0]; exact hne
  · rw [w1, w0]; simp

theorem find_distinguishes_nonzero_witness :
    raxtree_find (raxtree_insert raxtree_new (some (mkStr [120])) (-1)).2 (some (mkStr [120]))
        ≠ raxtree_find raxtree_new (some (mkStr [120])) ∧
      RadixTree_Find (some [([120], intToPtr (-1))]) [120] = some (-1) ∧
      RadixTree_Find (some []) [120] = none :=
  have h := find_distinguishes_nonzero [([120], intToPtr (-1))] [] (mkStr [120]) (-1)
    (by decide) (by decide) (by decide) (by decide) (by decide) (by decide)
  ⟨h.2.2.1, h.2.2.2.1, h.2.2.2.2.1⟩

/-- C6 fails for a null buffer pointer of length `0`: `raxtree_insert` rejects
it with `-2` and stores nothing, so the following `raxtree_find` with a
zero-length key returns the null pointer, not the payload. -/
theorem insert_null_buffer_length_zero_rejected :
    raxtree_insert raxtree_new (some { len := 0, buf := none }) 5 = (-2, raxtree_new) ∧
      raxtree_find (raxtree_insert raxtree_new (some { len := 0, buf := none }) 5).2
        (some (mkStr [])) = NULL ∧
      intToPtr 5 ≠ NULL := by
  decide

/-- C6, amended. A zero-length key with a non-null buffer pointer is a valid
key: on every live trie `raxtree_insert` accepts it (returning the library's
`0` or `1`), and a following `raxtree_find` with a zero-length key returns the
slot of `v`, which casts back to `v`; a null buffer pointer is rejected with
`-2` and no mutation whatever the length. -/
theorem empty_key_round_trip (t : rax) (v : Int) (bs bs2 : List Nat) (n : Nat)
    (hlo : INT_MIN ≤ v) (hhi : v ≤ INT_MAX) :
    ((raxtree_insert (some t) (some { len := 0, buf := some bs }) v).1 = 0 ∨
        (raxtree_insert (some t) (some { len := 0, buf := some bs }) v).1 = 1) ∧
      raxtree_find (raxtree_insert (some t) (some { len := 0, buf := some bs }) v).2
        (some { len := 0, buf := some bs2 }) = intToPtr v ∧
      ptrToInt (raxtree_find (raxtree_insert (some t) (some { len := 0, buf := some bs }) v).2
        (some { len := 0, buf := some bs2 })) = v ∧
      raxtree_insert (some t) (some { len := n, buf := none }) v = (-2, some t) := by
  have hf : raxtree_find (raxtree_insert (some t) (some { len := 0, buf := some bs }) v).2
      (some { len := 0, buf := some bs2 }) = intToPtr v := by
    simp [raxtree_insert, raxtree_find, raxFind_raxInsert_self]
  refine ⟨?_, hf, ?_, rfl⟩
  · simpa [raxtree_insert] using raxInsert_signal t [] (intToPtr v)
  · rw [hf]; exact ptrToInt_intToPtr v hlo hhi

theorem empty_key_round_trip_witness :
    (INT_MIN ≤ 0 ∧ (0 : Int) ≤ INT_MAX) ∧
      raxtree_find (raxtree_insert (some [([97], 3)]) (some { len := 0, buf := some [7] }) 0).2
        (some { len := 0, buf := some [] }) = intToPtr 0 ∧
      raxtree_insert (some [([97], 3)]) (some { len := 4, buf := none }) 0
        = (-2, some [([97], 3)]) :=
  have h := empty_key_round_trip [([97], 3)] 0 [7] [] 4 (by decide) (by decide)
  ⟨by decide, h.2.1, h.2.2.2⟩

/-- C8. Remove: on a live trie and a key with a non-null buffer, if the key is
not stored `raxtree_remove` returns `0` and leaves the trie as it was; if it is
stored `raxtree_remove` returns `1`, a following `raxtree_find` on the key
reports not found, and every other key keeps its payload: the entries left are
exactly the old entries under the other keys, the library lookup of every
other key is what it was (stored or absent, payload `0` included), and so is
`raxtree_find`. -/
theorem remove_correct (t : rax) (kb : rt_str_t) (hb : kb.buf ≠ none) :
    (raxFind t kb.bytes = none → raxtree_remove (some t) (some kb) = (0, some t)) ∧
      (raxFind t kb.bytes ≠ none →
        ∃ t', raxtree_remove (some t) (some kb) = (1, some t') ∧
          raxFind t' kb.bytes = none ∧
          raxtree_find (some t') (some kb) = NULL ∧
          (∀ e, e ∈ t' ↔ e ∈ t ∧ e.1 ≠ kb.bytes) ∧
          (∀ k2 : Key, k2 ≠ kb.bytes → raxFind t' k2 = raxFind t k2) ∧
          ∀ kb2 : rt_str_t, kb2.buf ≠ none → kb2.bytes ≠ kb.bytes →
            raxtree_find (some t') (some kb2) = raxtree_find (some t) (some kb2)) := by
  rw [raxtree_remove_some t kb hb]
  constructor
  · intro h
    have := (raxFind_eq_none_iff t kb.bytes).1 h
    simp [raxRemove, this]
  · intro h
    have hany : t.any (fun e => decide (e.1 = kb.bytes)) = true := by
      cases hh : t.any (fun e => decide (e.1 = kb.bytes)) with
      | true => rfl
      | false => exact absurd ((raxFind_eq_none_iff t kb.bytes).2 hh) h
    have hrm : raxRemove t kb.bytes = (1, t.filter (fun e => !decide (e.1 = kb.bytes))) := by
      simp only [raxRemove, hany, if_true]
    rw [hrm]
    refine ⟨t.filter (fun e => !decide (e.1 = kb.bytes)), rfl,
      raxFind_filter_self t kb.bytes, ?_, ?_, ?_, ?_⟩
    · rw [raxtree_find_some _ kb hb, raxFind_filter_self]
      rfl
    · intro e
      simp [List.mem_filter]
    · intro k2 hne
      exact raxFind_filter_other t kb.bytes k2 hne
    · intro kb2 hb2 hne
      rw [raxtree_find_some _ kb2 hb2, raxtree_find_some _ kb2 hb2,
        raxFind_filter_other t kb.bytes kb2.bytes hne]

theorem remove_correct_witness :
    raxFind [([97], 1), ([97, 98], 0), ([98], 0)] (mkStr [97]).bytes ≠ none ∧
      ∃ t', raxtree_remove (some [([97], 1), ([97, 98], 0), ([98], 0)]) (some (mkStr [97]))
          = (1, some t') ∧
        raxFind t' (mkStr [97]).bytes = none ∧
        raxFind t' [97, 98] = some 0 ∧ raxFind t' [98] = some 0 ∧ raxFind t' [99] = none := by
  refine ⟨by decide, ?_⟩
  obtain ⟨t', h1, h2, _, _, h5, _⟩ :=
    (remove_correct [([97], 1), ([97, 98], 0), ([98], 0)] (mkStr [97]) (by decide)).2 (by decide)
  refine ⟨t', h1, h2, ?_, ?_, ?_⟩
  · rw [h5 [97, 98] (by decide)]; decide
  · rw [h5 [98] (by decide)]; decide
  · rw [h5 [99] (by decide)]; decide

/-! ## Single steps of the cursor -/

theorem keyBelow_of_keyLt (p : raxPos) (a b : Key) (hab : keyLt a b = true)
    (hb : keyBelow p b = true) : keyBelow p a = true := by
  cases p with
  | beforeFirst => simp [keyBelow] at hb
  | onKey c d => exact keyLt_trans a b c hab hb
  | afterLast => rfl

theorem keyAbove_of_keyLt (p : raxPos) (a b : Key) (hab : keyLt a b = true)
    (ha : keyAbove p a = true) : keyAbove p b = true := by
  cases p with
  | beforeFirst => rfl
  | onKey c d => exact keyLt_trans c a b ha hab
  | afterLast => simp [keyAbove] at ha

theorem raxPrev_of_getLast_none (it : raxIterator)
    (h : (entriesBelow it.rt it.pos).getLast? = none) :
    raxPrev it = (0, { it with pos := .beforeFirst }) := by
  simp [raxPrev, h]

theorem raxPrev_of_getLast_some (it : raxIterator) (e : Key × Ptr)
    (h : (entriesBelow it.rt it.pos).getLast? = some e) :
    raxPrev it = (1, { it with pos := .onKey e.1 e.2 }) := by
  simp [raxPrev, h]

theorem raxNext_of_head_none (it : raxIterator)
    (h : (entriesAbove it.rt it.pos).head? = none) :
    raxNext it = (0, { it with pos := .afterLast }) := by
  simp [raxNext, h]

theorem raxNext_of_head_some (it : raxIterator) (e : Key × Ptr)
    (h : (entriesAbove it.rt it.pos).head? = some e) :
    raxNext it = (1, { it with pos := .onKey e.1 e.2 }) := by
  simp [raxNext, h]

theorem raxUp_of_getLast_none (it : raxIterator)
    (h : (terminalAncestors it.rt it.pos).getLast? = none) :
    raxUp it = (0, { it with pos := .beforeFirst }) := by
  simp [raxUp, h]

theorem raxUp_of_getLast_some (it : raxIterator) (e : Key × Ptr)
    (h : (terminalAncestors it.rt it.pos).getLast? = some e) :
    raxUp it = (1, { it with pos := .onKey e.1 e.2 }) := by
  simp [raxUp, h]

/-- A successful `raxPrev` lands on an entry below the old position, and fewer
entries lie below the new position than below the old one. -/
theorem raxPrev_moves_down (it : raxIterator) (h : (raxPrev it).1 ≠ 0) :
    keyBelow it.pos (raxPrev it).2.key = true ∧
      (raxPrev it).2.rt = it.rt ∧
      (entriesBelow (raxPrev it).2.rt (raxPrev it).2.pos).length
        < (entriesBelow it.rt it.pos).length := by
  cases hl : (entriesBelow it.rt it.pos).getLast? with
  | none =>
    rw [raxPrev_of_getLast_none it hl] at h
    exact absurd rfl h
  | some e =>
    rw [raxPrev_of_getLast_some it e hl]
    have hmem : e ∈ entriesBelow it.rt it.pos := List.mem_of_getLast?_eq_some hl
    have hbelow : keyBelow it.pos e.1 = true := by
      have := (List.mem_filter.1 hmem).2
      simpa using this
    refine ⟨hbelow, rfl, ?_⟩
    show (List.filter (fun x => keyBelow (.onKey e.1 e.2) x.1) it.rt).length
      < (entriesBelow it.rt it.pos).length
    have heq : List.filter (fun x => keyBelow (.onKey e.1 e.2) x.1) it.rt
        = List.filter (fun x => keyBelow (.onKey e.1 e.2) x.1) (entriesBelow it.rt it.pos) := by
      unfold entriesBelow
      rw [List.filter_filter]
      apply List.filter_congr
      intro x _
      cases hx : keyBelow (.onKey e.1 e.2) x.1 with
      | false => simp
      | true =>
        have : keyBelow it.pos x.1 = true := keyBelow_of_keyLt it.pos x.1 e.1 hx hbelow
        simp [this]
    rw [heq]
    apply List.length_filter_lt_length_iff_exists.2
    refine ⟨e, hmem, ?_⟩
    simp [keyBelow, keyLt_irrefl]

/-- A successful `raxUp` lands on a strictly shorter key. -/
theorem raxUp_moves_up (it : raxIterator) (h : (raxUp it).1 ≠ 0) :
    (raxUp it).2.key_len < it.key_len ∧ (raxUp it).2.rt = it.rt := by
  cases hl : (terminalAncestors it.rt it.pos).getLast? with
  | none =>
    rw [raxUp_of_getLast_none it hl] at h
    exact absurd rfl h
  | some e =>
    rw [raxUp_of_getLast_some it e hl]
    have hmem : e ∈ terminalAncestors it.rt it.pos := List.mem_of_getLast?_eq_some hl
    refine ⟨?_, rfl⟩
    obtain ⟨t, pos⟩ := it
    cases pos with
    | beforeFirst => simp [terminalAncestors] at hmem
    | afterLast => simp [terminalAncestors] at hmem
    | onKey k d =>
      have := (List.mem_filter.1 hmem).2
      simp only [Bool.and_eq_true, decide_eq_true_eq] at this
      simpa [raxIterator.key_len, raxIterator.key] using this.2

/-! ## The skip loops return -/

theorem raxtree_prev_loop_returns (buf : rt_str_t) :
    ∀ (fuel : Nat) (it : raxIterator), (entriesBelow it.rt it.pos).length < fuel →
      ∃ r, raxtree_prev_loop fuel it buf = some r
  | 0, _, h => absurd h (Nat.not_lt_zero _)
  | fuel + 1, it, h => by
    unfold raxtree_prev_loop
    by_cases h0 : (raxPrev it).1 = 0
    · exact ⟨(-1, (raxPrev it).2), by simp [h0]⟩
    · by_cases hm : refMismatch (raxPrev it).2 buf = true
      · have hdown := (raxPrev_moves_down it h0).2.2
        obtain ⟨r, hr⟩ := raxtree_prev_loop_returns buf fuel (raxPrev it).2 (by omega)
        exact ⟨r, by simp [h0, hm, hr]⟩
      · exact ⟨(ptrToInt (raxPrev it).2.data, (raxPrev it).2), by simp [h0, hm]⟩

theorem raxtree_prev_loop_succ (buf : rt_str_t) :
    ∀ (fuel : Nat) (it : raxIterator) (r : Int × raxIterator),
      raxtree_prev_loop fuel it buf = some r → raxtree_prev_loop (fuel + 1) it buf = some r
  | 0, _, _, h => by simp [raxtree_prev_loop] at h
  | fuel + 1, it, r, h => by
    unfold raxtree_prev_loop at h ⊢
    by_cases h0 : (raxPrev it).1 = 0
    · simpa [h0] using h
    · by_cases hm : refMismatch (raxPrev it).2 buf = true
      · simp only [h0, hm, if_false, if_true] at h ⊢
        exact raxtree_prev_loop_succ buf fuel _ r h
      · simpa [h0, hm] using h

theorem raxtree_prev_loop_stable (buf : rt_str_t) (it : raxIterator) (r : Int × raxIterator)
    (fuel : Nat) (h : raxtree_prev_loop fuel it buf = some r) :
    ∀ fuel2, fuel ≤ fuel2 → raxtree_prev_loop fuel2 it buf = some r := by
  intro fuel2 hle
  induction fuel2, hle using Nat.le_induction with
  | base => exact h
  | succ n _ ih => exact raxtree_prev_loop_succ buf n it r ih

theorem raxtree_up_loop_returns (buf : rt_str_t) :
    ∀ (fuel : Nat) (it : raxIterator), it.key_len < fuel →
      ∃ r, raxtree_up_loop fuel it buf = some r
  | 0, _, h => absurd h (Nat.not_lt_zero _)
  | fuel + 1, it, h => by
    unfold raxtree_up_loop
    by_cases h0 : (raxUp it).1 = 0
    · exact ⟨(-1, (raxUp it).2), by simp [h0]⟩
    · by_cases hm : refMismatch (raxUp it).2 buf = true
      · have hup := (raxUp_moves_up it h0).1
        obtain ⟨r, hr⟩ := raxtree_up_loop_returns buf fuel (raxUp it).2 (by omega)
        exact ⟨r, by simp [h0, hm, hr]⟩
      · exact ⟨(ptrToInt (raxUp it).2.data, (raxUp it).2), by simp [h0, hm]⟩

theorem raxtree_up_loop_succ (buf : rt_str_t) :
    ∀ (fuel : Nat) (it : raxIterator) (r : Int × raxIterator),
      raxtree_up_loop fuel it buf = some r → raxtree_up_loop (fuel + 1) it buf = some r
  | 0, _, _, h => by simp [raxtree_up_loop] at h
  | fuel + 1, it, r, h => by
    unfold raxtree_up_loop at h ⊢
    by_cases h0 : (raxUp it).1 = 0
    · simpa [h0] using h
    · by_cases hm : refMismatch (raxUp it).2 buf = true
      · simp only [h0, hm, if_false, if_true] at h ⊢
        exact raxtree_up_loop_succ buf fuel _ r h
      · simpa [h0, hm] using h

theorem raxtree_up_loop_stable (buf : rt_str_t) (it : raxIterator) (r : Int × raxIterator)
    (fuel : Nat) (h : raxtree_up_loop fuel it buf = some r) :
    ∀ fuel2, fuel ≤ fuel2 → raxtree_up_loop fuel2 it buf = some r := by
  intro fuel2 hle
  induction fuel2, hle using Nat.le_induction with
  | base => exact h
  | succ n _ ih => exact raxtree_up_loop_succ buf n it r ih

/-- What a returning `raxtree_prev` loop hands back: `-1` with the cursor before
the first key, or the payload of a key that passes the reference test. -/
theorem raxtree_prev_loop_result (buf : rt_str_t) :
    ∀ (fuel : Nat) (it : raxIterator) (r : Int × raxIterator),
      raxtree_prev_loop fuel it buf = some r →
      (r.1 = -1 ∧ r.2.pos = .beforeFirst) ∨
        (∃ k d, r.2.pos = .onKey k d ∧ refMismatch r.2 buf = false ∧ r.1 = ptrToInt d)
  | 0, _, _, h => by simp [raxtree_prev_loop] at h
  | fuel + 1, it, r, h => by
    unfold raxtree_prev_loop at h
    cases hl : (entriesBelow it.rt it.pos).getLast? with
    | none =>
      rw [raxPrev_of_getLast_none it hl] at h
      simp only [if_true, Option.some.injEq] at h
      subst h
      exact Or.inl ⟨rfl, rfl⟩
    | some e =>
      rw [raxPrev_of_getLast_some it e hl] at h
      by_cases hm : refMismatch { it with pos := .onKey e.1 e.2 } buf = true
      · rw [if_neg (by simp), if_pos hm] at h
        exact raxtree_prev_loop_result buf fuel _ r h
      · rw [if_neg (by simp), if_neg hm] at h
        have h' := Option.some.inj h
        subst h'
        exact Or.inr ⟨e.1, e.2, rfl, by simpa using hm, rfl⟩

/-- What a returning `raxtree_up` loop hands back. -/
theorem raxtree_up_loop_result (buf : rt_str_t) :
    ∀ (fuel : Nat) (it : raxIterator) (r : Int × raxIterator),
      raxtree_up_loop fuel it buf = some r →
      (r.1 = -1 ∧ r.2.pos = .beforeFirst) ∨
        (∃ k d, r.2.pos = .onKey k d ∧ refMismatch r.2 buf = false ∧ r.1 = ptrToInt d)
  | 0, _, _, h => by simp [raxtree_up_loop] at h
  | fuel + 1, it, r, h => by
    unfold raxtree_up_loop at h
    cases hl : (terminalAncestors it.rt it.pos).getLast? with
    | none =>
      rw [raxUp_of_getLast_none it hl] at h
      simp only [if_true, Option.some.injEq] at h
      subst h
      exact Or.inl ⟨rfl, rfl⟩
    | some e =>
      rw [raxUp_of_getLast_some it e hl] at h
      by_cases hm : refMismatch { it with pos := .onKey e.1 e.2 } buf = true
      · rw [if_neg (by simp), if_pos hm] at h
        exact raxtree_up_loop_result buf fuel _ r h
      · rw [if_neg (by simp), if_neg hm] at h
        have h' := Option.some.inj h
        subst h'
        exact Or.inr ⟨e.1, e.2, rfl, by simpa using hm, rfl⟩

theorem raxtree_prev_eq_loop (it : raxIterator) (buf : rt_str_t) :
    raxtree_prev_loop (it.rt.length + 1) it buf = some (raxtree_prev it buf) := by
  have hlen : (entriesBelow it.rt it.pos).length < it.rt.length + 1 :=
    Nat.lt_succ_of_le (List.length_filter_le _ _)
  obtain ⟨r, hr⟩ := raxtree_prev_loop_returns buf _ it hlen
  simp [raxtree_prev, hr]

theorem raxtree_up_eq_loop (it : raxIterator) (buf : rt_str_t) :
    raxtree_up_loop (it.key_len + 1) it buf = some (raxtree_up it buf) := by
  obtain ⟨r, hr⟩ := raxtree_up_loop_returns buf _ it (Nat.lt_succ_self _)
  simp [raxtree_up, hr]

theorem raxtree_next_result (it : raxIterator) (buf : rt_str_t) :
    ((raxtree_next it buf).1 = -1 ∧
        ¬ ∃ k d, (raxtree_next it buf).2.pos = .onKey k d ∧
          refMismatch (raxtree_next it buf).2 buf = false) ∨
      (∃ k d, (raxtree_next it buf).2.pos = .onKey k d ∧
        refMismatch (raxtree_next it buf).2 buf = false ∧
        (raxtree_next it buf).1 = ptrToInt d) := by
  unfold raxtree_next
  cases hl : (entriesAbove it.rt it.pos).head? with
  | none =>
    rw [raxNext_of_head_none it hl]
    left
    simp
  | some e =>
    rw [raxNext_of_head_some it e hl]
    by_cases hm : refMismatch { it with pos := .onKey e.1 e.2 } buf = true
    · left
      simp [hm]
    · right
      refine ⟨e.1, e.2, ?_⟩
      simp [hm, raxIterator.data]

/-! ## Termination of the skip loops and the values they return -/

/-- C9. Totality of the skip loops: on every iterator and reference buffer the
`while (1)` loop of `raxtree_prev` returns within one iteration per stored key
plus one, and that of `raxtree_up` within one iteration per byte of the current
key plus one (more iterations change nothing); the value returned is `-1` or
the payload of the key the cursor is on.  Each `raxPrev` that lets the loop go
on has moved the cursor to a key strictly below the old position, with fewer
stored keys left below it, and each such `raxUp` to a strictly shorter key. -/
theorem skip_loops_terminate (it : raxIterator) (buf : rt_str_t) :
    (∃ r, (∀ fuel, it.rt.length + 1 ≤ fuel → raxtree_prev_loop fuel it buf = some r) ∧
        raxtree_prev it buf = r ∧
        (r.1 = -1 ∨ ∃ k d, r.2.pos = .onKey k d ∧ r.1 = ptrToInt d)) ∧
      (∃ r, (∀ fuel, it.key_len + 1 ≤ fuel → raxtree_up_loop fuel it buf = some r) ∧
        raxtree_up it buf = r ∧
        (r.1 = -1 ∨ ∃ k d, r.2.pos = .onKey k d ∧ r.1 = ptrToInt d)) ∧
      ((raxPrev it).1 ≠ 0 →
        keyBelow it.pos (raxPrev it).2.key = true ∧
        (entriesBelow (raxPrev it).2.rt (raxPrev it).2.pos).length
          < (entriesBelow it.rt it.pos).length) ∧
      ((raxUp it).1 ≠ 0 → (raxUp it).2.key_len < it.key_len) := by
  refine ⟨⟨raxtree_prev it buf, ?_, rfl, ?_⟩, ⟨raxtree_up it buf, ?_, rfl, ?_⟩, ?_, ?_⟩
  · exact raxtree_prev_loop_stable buf it _ _ (raxtree_prev_eq_loop it buf)
  · rcases raxtree_prev_loop_result buf _ it _ (raxtree_prev_eq_loop it buf) with h | h
    · exact Or.inl h.1
    · obtain ⟨k, d, hp, _, hr⟩ := h
      exact Or.inr ⟨k, d, hp, hr⟩
  · exact raxtree_up_loop_stable buf it _ _ (raxtree_up_eq_loop it buf)
  · rcases raxtree_up_loop_result buf _ it _ (raxtree_up_eq_loop it buf) with h | h
    · exact Or.inl h.1
    · obtain ⟨k, d, hp, _, hr⟩ := h
      exact Or.inr ⟨k, d, hp, hr⟩
  · intro h
    exact ⟨(raxPrev_moves_down it h).1, (raxPrev_moves_down it h).2.2⟩
  · intro h
    exact (raxUp_moves_up it h).1

theorem skip_loops_terminate_witness :
    raxtree_prev_loop 100 ⟨[([97], 1), ([97, 98], 2), ([97, 99], 3), ([98], 4)], .afterLast⟩
        (mkStr [97])
      = some (raxtree_prev ⟨[([97], 1), ([97, 98], 2), ([97, 99], 3), ([98], 4)], .afterLast⟩
          (mkStr [97])) ∧
      raxtree_up_loop 100 ⟨[([97], 1), ([97, 98], 2), ([97, 99], 3), ([98], 4)], .onKey [97, 99] 3⟩
        (mkStr [120])
      = some (raxtree_up ⟨[([97], 1), ([97, 98], 2), ([97, 99], 3), ([98], 4)], .onKey [97, 99] 3⟩
          (mkStr [120])) := by
  constructor
  · obtain ⟨r, h1, h2, _⟩ := (skip_loops_terminate
      ⟨[([97], 1), ([97, 98], 2), ([97, 99], 3), ([98], 4)], .afterLast⟩ (mkStr [97])).1
    rw [h2]
    exact h1 100 (by decide)
  · obtain ⟨r, h1, h2, _⟩ := (skip_loops_terminate
      ⟨[([97], 1), ([97, 98], 2), ([97, 99], 3), ([98], 4)], .onKey [97, 99] 3⟩ (mkStr [120])).2.1
    rw [h2]
    exact h1 100 (by decide)

theorem value_of_step_shape (r : Int × raxIterator) (buf : rt_str_t) (v : Int)
    (hlo : INT_MIN ≤ v) (hhi : v ≤ INT_MAX)
    (h : (r.1 = -1 ∧ ¬ ∃ k d, r.2.pos = .onKey k d ∧ refMismatch r.2 buf = false) ∨
      (∃ k d, r.2.pos = .onKey k d ∧ refMismatch r.2 buf = false ∧ r.1 = ptrToInt d)) :
    (landsOn r buf v → r.1 = v) ∧ (stepExhausted r buf → r.1 = -1) := by
  constructor
  · rintro ⟨k, hk, hm⟩
    rcases h with ⟨_, hno⟩ | ⟨k2, d, hp, _, hr⟩
    · exact absurd ⟨k, _, hk, hm⟩ hno
    · rw [hk] at hp
      cases hp
      rw [hr]
      exact ptrToInt_intToPtr v hlo hhi
  · intro hex
    rcases h with ⟨h1, _⟩ | ⟨k2, d, hp, hm, _⟩
    · exact h1
    · exact absurd ⟨k2, d, hp, hm⟩ hex

theorem loop_shape_of_result (r : Int × raxIterator) (buf : rt_str_t)
    (h : (r.1 = -1 ∧ r.2.pos = .beforeFirst) ∨
      (∃ k d, r.2.pos = .onKey k d ∧ refMismatch r.2 buf = false ∧ r.1 = ptrToInt d)) :
    (r.1 = -1 ∧ ¬ ∃ k d, r.2.pos = .onKey k d ∧ refMismatch r.2 buf = false) ∨
      (∃ k d, r.2.pos = .onKey k d ∧ refMismatch r.2 buf = false ∧ r.1 = ptrToInt d) := by
  rcases h with ⟨h1, h2⟩ | h
  · left
    refine ⟨h1, ?_⟩
    rintro ⟨k, d, hp, _⟩
    rw [h2] at hp
    cases hp
  · exact Or.inr h

/-- C3 fails for the payload `-1`: each of `raxtree_next`, `raxtree_prev` and
`raxtree_up` returns `-1` when it lands on a qualifying key holding `-1`, the
same `int` it returns when it reports exhausted. -/
theorem step_payload_minus_one_is_exhausted :
    (landsOn (raxtree_next ⟨[([97], intToPtr (-1))], .beforeFirst⟩ (mkStr [97])) (mkStr [97]) (-1) ∧
      stepExhausted (raxtree_next ⟨[([97], intToPtr (-1))], .afterLast⟩ (mkStr [97])) (mkStr [97]) ∧
      (raxtree_next ⟨[([97], intToPtr (-1))], .beforeFirst⟩ (mkStr [97])).1
        = (raxtree_next ⟨[([97], intToPtr (-1))], .afterLast⟩ (mkStr [97])).1) ∧
    (landsOn (raxtree_prev ⟨[([97], intToPtr (-1))], .afterLast⟩ (mkStr [97])) (mkStr [97]) (-1) ∧
      stepExhausted (raxtree_prev ⟨[([97], intToPtr (-1))], .beforeFirst⟩ (mkStr [97])) (mkStr [97]) ∧
      (raxtree_prev ⟨[([97], intToPtr (-1))], .afterLast⟩ (mkStr [97])).1
        = (raxtree_prev ⟨[([97], intToPtr (-1))], .beforeFirst⟩ (mkStr [97])).1) ∧
    (landsOn (raxtree_up ⟨[([97], intToPtr (-1)), ([97, 98], 5)], .onKey [97, 98] 5⟩
        (mkStr [97, 98])) (mkStr [97, 98]) (-1) ∧
      stepExhausted (raxtree_up ⟨[([97], intToPtr (-1)), ([97, 98], 5)], .onKey [97] (intToPtr (-1))⟩
        (mkStr [97, 98])) (mkStr [97, 98]) ∧
      (raxtree_up ⟨[([97], intToPtr (-1)), ([97, 98], 5)], .onKey [97, 98] 5⟩ (mkStr [97, 98])).1
        = (raxtree_up ⟨[([97], intToPtr (-1)), ([97, 98], 5)], .onKey [97] (intToPtr (-1))⟩
            (mkStr [97, 98])).1) := by
  refine ⟨⟨⟨[97], by decide⟩, ?_, by decide⟩, ⟨⟨[97], by decide⟩, ?_, by decide⟩,
    ⟨⟨[97], by decide⟩, ?_, by decide⟩⟩
  · rintro ⟨k, d, hp, _⟩
    have : (raxtree_next ⟨[([97], intToPtr (-1))], .afterLast⟩ (mkStr [97])).2.pos
        = .afterLast := by decide
    rw [this] at hp
    cases hp
  · rintro ⟨k, d, hp, _⟩
    have : (raxtree_prev ⟨[([97], intToPtr (-1))], .beforeFirst⟩ (mkStr [97])).2.pos
        = .beforeFirst := by decide
    rw [this] at hp
    cases hp
  · rintro ⟨k, d, hp, _⟩
    have : (raxtree_up ⟨[([97], intToPtr (-1)), ([97, 98], 5)], .onKey [97] (intToPtr (-1))⟩
        (mkStr [97, 98])).2.pos = .beforeFirst := by decide
    rw [this] at hp
    cases hp

/-- C3, amended. For each of `raxtree_next`, `raxtree_prev` and `raxtree_up`
and every `int` payload `v` other than `-1`: a call that lands on a qualifying
key holding `v` returns `v`, a call that reports exhausted returns `-1`, and
the two values differ. -/
theorem step_payload_differs_from_exhausted (v : Int)
    (hlo : INT_MIN ≤ v) (hhi : v ≤ INT_MAX) (hv : v ≠ -1)
    (it it2 : raxIterator) (buf buf2 : rt_str_t) :
    (landsOn (raxtree_next it buf) buf v → stepExhausted (raxtree_next it2 buf2) buf2 →
        (raxtree_next it buf).1 = v ∧ (raxtree_next it2 buf2).1 = -1 ∧
        (raxtree_next it buf).1 ≠ (raxtree_next it2 buf2).1) ∧
      (landsOn (raxtree_prev it buf) buf v → stepExhausted (raxtree_prev it2 buf2) buf2 →
        (raxtree_prev it buf).1 = v ∧ (raxtree_prev it2 buf2).1 = -1 ∧
        (raxtree_prev it buf).1 ≠ (raxtree_prev it2 buf2).1) ∧
      (landsOn (raxtree_up it buf) buf v → stepExhausted (raxtree_up it2 buf2) buf2 →
        (raxtree_up it buf).1 = v ∧ (raxtree_up it2 buf2).1 = -1 ∧
        (raxtree_up it buf).1 ≠ (raxtree_up it2 buf2).1) := by
  have hn := fun (i : raxIterator) (b : rt_str_t) =>
    value_of_step_shape (raxtree_next i b) b v hlo hhi (raxtree_next_result i b)
  have hp := fun (i : raxIterator) (b : rt_str_t) =>
    value_of_step_shape (raxtree_prev i b) b v hlo hhi
      (loop_shape_of_result _ b
        (raxtree_prev_loop_result b _ i _ (raxtree_prev_eq_loop i b)))
  have hu := fun (i : raxIterator) (b : rt_str_t) =>
    value_of_step_shape (raxtree_up i b) b v hlo hhi
      (loop_shape_of_result _ b
        (raxtree_up_loop_result b _ i _ (raxtree_up_eq_loop i b)))
  refine ⟨fun h1 h2 => ?_, fun h1 h2 => ?_, fun h1 h2 => ?_⟩
  · have a := (hn it buf).1 h1
    have b := (hn it2 buf2).2 h2
    exact ⟨a, b, by rw [a, b]; exact hv⟩
  · have a := (hp it buf).1 h1
    have b := (hp it2 buf2).2 h2
    exact ⟨a, b, by rw [a, b]; exact hv⟩
  · have a := (hu it buf).1 h1
    have b := (hu it2 buf2).2 h2
    exact ⟨a, b, by rw [a, b]; exact hv⟩

theorem step_payload_differs_from_exhausted_witness :
    (INT_MIN ≤ 0 ∧ (0 : Int) ≤ INT_MAX ∧ (0 : Int) ≠ -1) ∧
      (raxtree_next ⟨[([97], intToPtr 0)], .beforeFirst⟩ (mkStr [97])).1 = 0 ∧
      (raxtree_next ⟨[([97], intToPtr 0)], .afterLast⟩ (mkStr [97])).1 = -1 ∧
      (raxtree_next ⟨[([97], intToPtr 0)], .beforeFirst⟩ (mkStr [97])).1
        ≠ (raxtree_next ⟨[([97], intToPtr 0)], .afterLast⟩ (mkStr [97])).1 :=
  ⟨by decide,
    (step_payload_differs_from_exhausted 0 (by decide) (by decide) (by decide)
      ⟨[([97], intToPtr 0)], .beforeFirst⟩ ⟨[([97], intToPtr 0)], .afterLast⟩
      (mkStr [97]) (mkStr [97])).1 ⟨[97], by decide⟩
      (by
        rintro ⟨k, d, hp, _⟩
        have : (raxtree_next ⟨[([97], intToPtr 0)], .afterLast⟩ (mkStr [97])).2.pos
            = .afterLast := by decide
        rw [this] at hp
        cases hp)⟩

/-! ## Steps on an ordered trie -/

theorem refMismatch_onKey (t : rax) (k : Key) (d : Ptr) (ref : List Nat) :
    refMismatch ⟨t, .onKey k d⟩ (mkStr ref) = !decide (k <+: ref) := by
  have h := refMismatch_mkStr ⟨t, .onKey k d⟩ ref
  simp only [raxIterator.key] at h
  by_cases hp : k <+: ref
  · simp [hp, h.2 hp]
  · cases hm : refMismatch ⟨t, .onKey k d⟩ (mkStr ref) with
    | true => simp [hp]
    | false => exact absurd (h.1 hm) hp

theorem ordered_entriesBelow (t : rax) (ht : t.ordered) (p : raxPos) :
    (entriesBelow t p).Pairwise (fun a b => keyLt a.1 b.1 = true) :=
  List.Pairwise.filter _ ht

theorem ordered_entriesAbove (t : rax) (ht : t.ordered) (p : raxPos) :
    (entriesAbove t p).Pairwise (fun a b => keyLt a.1 b.1 = true) :=
  List.Pairwise.filter _ ht

/-- Two entries of an ordered trie with the same key are the same entry. -/
theorem ordered_last_unique (l : List (Key × Ptr)) (m e : Key × Ptr)
    (hp : (l ++ [m]).Pairwise (fun a b => keyLt a.1 b.1 = true))
    (he : e ∈ l ++ [m]) (hge : m.1 = e.1 ∨ keyLt m.1 e.1 = true) : e = m := by
  rcases List.mem_append.1 he with h | h
  · have hlt : keyLt e.1 m.1 = true :=
      (List.pairwise_append.1 hp).2.2 e h m (List.mem_singleton_self m)
    rcases hge with hge | hge
    · rw [hge, keyLt_irrefl] at hlt
      exact absurd hlt (by simp)
    · rw [keyLt_asymm e.1 m.1 hlt] at hge
      exact absurd hge (by simp)
  · exact List.mem_singleton.1 h

theorem ordered_head_unique (l : List (Key × Ptr)) (m e : Key × Ptr)
    (hp : (m :: l).Pairwise (fun a b => keyLt a.1 b.1 = true))
    (he : e ∈ m :: l) (hle : m.1 = e.1 ∨ keyLt e.1 m.1 = true) : e = m := by
  rcases List.mem_cons.1 he with h | h
  · exact h
  · have hlt : keyLt m.1 e.1 = true := (List.pairwise_cons.1 hp).1 e h
    rcases hle with hle | hle
    · rw [hle, keyLt_irrefl] at hlt
      exact absurd hlt (by simp)
    · rw [keyLt_asymm m.1 e.1 hlt] at hle
      exact absurd hle (by simp)

/-- On an ordered trie, stepping down from a position to the last entry below
it leaves exactly the earlier entries below the new position. -/
theorem entriesBelow_step (t : rax) (ht : t.ordered) (p : raxPos) (l : List (Key × Ptr))
    (e : Key × Ptr) (h : entriesBelow t p = l ++ [e]) :
    entriesBelow t (.onKey e.1 e.2) = l := by
  have hmem : e ∈ entriesBelow t p := by rw [h]; simp
  have hbelow : keyBelow p e.1 = true := by simpa using (List.mem_filter.1 hmem).2
  have hpw := ordered_entriesBelow t ht p
  rw [h] at hpw
  have heq : entriesBelow t (.onKey e.1 e.2)
      = List.filter (fun x => keyBelow (.onKey e.1 e.2) x.1) (entriesBelow t p) := by
    unfold entriesBelow
    rw [List.filter_filter]
    apply List.filter_congr
    intro x _
    cases hx : keyBelow (.onKey e.1 e.2) x.1 with
    | false => simp
    | true => simp [keyBelow_of_keyLt p x.1 e.1 hx hbelow]
  rw [heq, h, List.filter_append]
  have h1 : List.filter (fun x => keyBelow (.onKey e.1 e.2) x.1) l = l := by
    apply List.filter_eq_self.2
    intro a ha
    exact (List.pairwise_append.1 hpw).2.2 a ha e (List.mem_singleton_self e)
  have h2 : List.filter (fun x => keyBelow (.onKey e.1 e.2) x.1) [e] = [] := by
    simp [keyBelow, keyLt_irrefl]
  rw [h1, h2, List.append_nil]

/-- On an ordered trie, stepping up from a position to the first entry above it
leaves exactly the later entries above the new position. -/
theorem entriesAbove_step (t : rax) (ht : t.ordered) (p : raxPos) (l : List (Key × Ptr))
    (e : Key × Ptr) (h : entriesAbove t p = e :: l) :
    entriesAbove t (.onKey e.1 e.2) = l := by
  have hmem : e ∈ entriesAbove t p := by rw [h]; simp
  have habove : keyAbove p e.1 = true := by simpa using (List.mem_filter.1 hmem).2
  have hpw := ordered_entriesAbove t ht p
  rw [h] at hpw
  have heq : entriesAbove t (.onKey e.1 e.2)
      = List.filter (fun x => keyAbove (.onKey e.1 e.2) x.1) (entriesAbove t p) := by
    unfold entriesAbove
    rw [List.filter_filter]
    apply List.filter_congr
    intro x _
    cases hx : keyAbove (.onKey e.1 e.2) x.1 with
    | false => simp
    | true => simp [keyAbove_of_keyLt p e.1 x.1 hx habove]
  rw [heq, h, List.filter_cons]
  have h1 : List.filter (fun x => keyAbove (.onKey e.1 e.2) x.1) l = l := by
    apply List.filter_eq_self.2
    intro a ha
    exact (List.pairwise_cons.1 hpw).1 a ha
  have h0 : keyAbove (.onKey e.1 e.2) e.1 = false := by simp [keyAbove, keyLt_irrefl]
  rw [h0, h1]
  rfl

/-- The `raxtree_prev` loop on an ordered trie: it returns the payload of the
last entry below the cursor whose key is a byte-prefix of the reference and
leaves the cursor there, or returns `-1` when there is none. -/
theorem raxtree_prev_loop_ordered (t : rax) (ht : t.ordered) (ref : List Nat) :
    ∀ (l : List (Key × Ptr)) (p : raxPos) (fuel : Nat),
      entriesBelow t p = l → l.length < fuel →
      raxtree_prev_loop fuel ⟨t, p⟩ (mkStr ref) =
        some (match (l.filter (fun e => decide (e.1 <+: ref))).getLast? with
          | some e => (ptrToInt e.2, ⟨t, .onKey e.1 e.2⟩)
          | none => (-1, ⟨t, .beforeFirst⟩)) := by
  intro l
  induction l using List.reverseRecOn with
  | nil =>
    intro p fuel hl hf
    cases fuel with
    | zero => exact absurd hf (Nat.not_lt_zero _)
    | succ n =>
      unfold raxtree_prev_loop
      rw [raxPrev_of_getLast_none ⟨t, p⟩ (by simp [hl])]
      simp
  | append_singleton l e ih =>
    intro p fuel hl hf
    cases fuel with
    | zero => exact absurd hf (Nat.not_lt_zero _)
    | succ n =>
      unfold raxtree_prev_loop
      rw [raxPrev_of_getLast_some ⟨t, p⟩ e (by simp [hl])]
      have hlen : l.length < n := by
        rw [List.length_append, List.length_singleton] at hf
        omega
      by_cases hp : e.1 <+: ref
      · have hm : refMismatch ⟨t, .onKey e.1 e.2⟩ (mkStr ref) = false := by
          rw [refMismatch_onKey]; simp [hp]
        simp [hm, List.filter_append, hp, raxIterator.data]
      · have hm : refMismatch ⟨t, .onKey e.1 e.2⟩ (mkStr ref) = true := by
          rw [refMismatch_onKey]; simp [hp]
        have hrec := ih (.onKey e.1 e.2) n (entriesBelow_step t ht p l e hl) hlen
        simp [hm, List.filter_append, hp, hrec]

theorem raxtree_prev_ordered (t : rax) (ht : t.ordered) (ref : List Nat) (p : raxPos) :
    raxtree_prev ⟨t, p⟩ (mkStr ref) =
      (match ((entriesBelow t p).filter (fun e => decide (e.1 <+: ref))).getLast? with
        | some e => (ptrToInt e.2, ⟨t, .onKey e.1 e.2⟩)
        | none => (-1, ⟨t, .beforeFirst⟩)) := by
  have h := raxtree_prev_loop_ordered t ht ref (entriesBelow t p) p (t.length + 1) rfl
    (Nat.lt_succ_of_le (List.length_filter_le _ _))
  have h2 := raxtree_prev_eq_loop ⟨t, p⟩ (mkStr ref)
  rw [h] at h2
  exact (Option.some.inj h2).symm

theorem raxtree_next_ordered (t : rax) (ref : List Nat) (p : raxPos) :
    raxtree_next ⟨t, p⟩ (mkStr ref) =
      (match (entriesAbove t p).head? with
        | some e => (if e.1 <+: ref then ptrToInt e.2 else -1, ⟨t, .onKey e.1 e.2⟩)
        | none => (-1, ⟨t, .afterLast⟩)) := by
  unfold raxtree_next
  cases hl : (entriesAbove t p).head? with
  | none =>
    rw [raxNext_of_head_none ⟨t, p⟩ hl]
    simp
  | some e =>
    rw [raxNext_of_head_some ⟨t, p⟩ e hl]
    by_cases hp : e.1 <+: ref
    · have hm : refMismatch ⟨t, .onKey e.1 e.2⟩ (mkStr ref) = false := by
        rw [refMismatch_onKey]; simp [hp]
      simp [hm, hp, raxIterator.data]
    · have hm : refMismatch ⟨t, .onKey e.1 e.2⟩ (mkStr ref) = true := by
        rw [refMismatch_onKey]; simp [hp]
      simp [hm, hp]

theorem head_of_IsSuccessor (t : rax) (ht : t.ordered) (p : raxPos) (e : Key × Ptr)
    (h : IsSuccessor t p e) : (entriesAbove t p).head? = some e := by
  obtain ⟨hmem, habove, hmin⟩ := h
  have he : e ∈ entriesAbove t p := List.mem_filter.2 ⟨hmem, by simpa using habove⟩
  have hpw := ordered_entriesAbove t ht p
  cases hl : entriesAbove t p with
  | nil => rw [hl] at he; simp at he
  | cons m l =>
    rw [hl] at he hpw
    have hm : m ∈ entriesAbove t p := by rw [hl]; simp
    have hm2 := List.mem_filter.1 hm
    have := ordered_head_unique l m e hpw he (hmin m hm2.1 (by simpa using hm2.2))
    simp [this]

theorem getLast_of_IsNearestBelow (t : rax) (ht : t.ordered) (p : raxPos) (ref : List Nat)
    (e : Key × Ptr) (h : IsNearestBelow t p ref e) :
    ((entriesBelow t p).filter (fun x => decide (x.1 <+: ref))).getLast? = some e := by
  obtain ⟨hmem, hbelow, hpre, hmax⟩ := h
  have he : e ∈ (entriesBelow t p).filter (fun x => decide (x.1 <+: ref)) :=
    List.mem_filter.2 ⟨List.mem_filter.2 ⟨hmem, by simpa using hbelow⟩, by simpa using hpre⟩
  have hpw : ((entriesBelow t p).filter (fun x => decide (x.1 <+: ref))).Pairwise
      (fun a b => keyLt a.1 b.1 = true) := List.Pairwise.filter _ (ordered_entriesBelow t ht p)
  cases hl : ((entriesBelow t p).filter (fun x => decide (x.1 <+: ref))).getLast? with
  | none =>
    rw [List.getLast?_eq_none_iff.1 hl] at he
    simp at he
  | some m =>
    obtain ⟨l, hl2⟩ := List.getLast?_eq_some_iff.1 hl
    have hm : m ∈ (entriesBelow t p).filter (fun x => decide (x.1 <+: ref)) :=
      List.mem_of_getLast?_eq_some hl
    have hm1 := List.mem_filter.1 hm
    have hm2 := List.mem_filter.1 hm1.1
    rw [hl2] at he hpw
    have := ordered_last_unique l m e hpw he
      (hmax m hm2.1 (by simpa using hm2.2) (by simpa using hm1.2))
    rw [this]

/-! ## `raxtree_next` and `raxtree_prev` against the reference buffer -/

/-- C4 fails in both directions.  With keys `"a"`, `"ab"`, `"ac"`, `"b"`
(payloads 1 to 4) and the cursor on `"a"`, the successor is `"ab"`: with
reference `"a"`, a byte-prefix of `"ab"`, `raxtree_next` returns `-1`; with
reference `"abc"`, not a byte-prefix of `"ab"`, it returns the payload `2`. -/
theorem next_reference_check_is_reversed :
    IsSuccessor [([97], 1), ([97, 98], 2), ([97, 99], 3), ([98], 4)] (.onKey [97] 1) ([97, 98], 2) ∧
      ([97] : List Nat) <+: [97, 98] ∧
      (raxtree_next ⟨[([97], 1), ([97, 98], 2), ([97, 99], 3), ([98], 4)], .onKey [97] 1⟩
        (mkStr [97])).1 = -1 ∧
      ¬ ([97, 98, 99] : List Nat) <+: [97, 98] ∧
      (raxtree_next ⟨[([97], 1), ([97, 98], 2), ([97, 99], 3), ([98], 4)], .onKey [97] 1⟩
        (mkStr [97, 98, 99])).1 = 2 := by
  unfold IsSuccessor
  decide

/-- C4, amended. On an ordered trie `raxtree_next` makes one step and one
test: with no successor it returns `-1`; with a successor whose key is not a
byte-prefix of the reference it returns `-1` and leaves the cursor on that
successor, never on a later key; with a successor whose key is a byte-prefix of
the reference it returns the successor's payload. -/
theorem next_single_shot (t : rax) (ht : t.ordered) (p : raxPos) (ref : List Nat) :
    ((∀ e ∈ t, keyAbove p e.1 = false) →
        raxtree_next ⟨t, p⟩ (mkStr ref) = (-1, ⟨t, .afterLast⟩)) ∧
      (∀ e, IsSuccessor t p e →
        (¬ e.1 <+: ref → raxtree_next ⟨t, p⟩ (mkStr ref) = (-1, ⟨t, .onKey e.1 e.2⟩)) ∧
        (e.1 <+: ref →
          raxtree_next ⟨t, p⟩ (mkStr ref) = (ptrToInt e.2, ⟨t, .onKey e.1 e.2⟩))) := by
  constructor
  · intro hnone
    have : entriesAbove t p = [] := by
      apply List.filter_eq_nil_iff.2
      intro a ha
      simp [hnone a ha]
    rw [raxtree_next_ordered, this]
    rfl
  · intro e he
    rw [raxtree_next_ordered, head_of_IsSuccessor t ht p e he]
    constructor
    · intro hp
      simp [hp]
    · intro hp
      simp [hp]

theorem next_single_shot_witness :
    rax.ordered [([97], 1), ([97, 98], 2), ([97, 99], 3), ([98], 4)] ∧
      raxtree_next ⟨[([97], 1), ([97, 98], 2), ([97, 99], 3), ([98], 4)], .onKey [97] 1⟩
        (mkStr [97, 98, 99]) =
        (2, ⟨[([97], 1), ([97, 98], 2), ([97, 99], 3), ([98], 4)], .onKey [97, 98] 2⟩) :=
  ⟨by unfold rax.ordered; decide,
    ((next_single_shot [([97], 1), ([97, 98], 2), ([97, 99], 3), ([98], 4)]
      (by unfold rax.ordered; decide) (.onKey [97] 1) [97, 98, 99]).2 ([97, 98], 2)
      (by unfold IsSuccessor; decide)).2 (by decide)⟩

/-- C5 fails on its own example.  With keys `"a"`, `"ab"`, `"ac"`, `"b"`
(payloads 1 to 4), `"ac"` is the greatest key below `"b"` that has `"a"` as a
byte-prefix, yet `raxtree_prev` from `"b"` with reference `"a"` skips `"ac"`
and `"ab"` and returns `1`, the payload of `"a"`. -/
theorem prev_reference_check_is_reversed :
    (([97, 99], 3) ∈ [(([97] : Key), (1 : Ptr)), ([97, 98], 2), ([97, 99], 3), ([98], 4)] ∧
        keyBelow (.onKey [98] 4) [97, 99] = true ∧ ([97] : List Nat) <+: [97, 99] ∧
        ∀ e ∈ [(([97] : Key), (1 : Ptr)), ([97, 98], 2), ([97, 99], 3), ([98], 4)],
          keyBelow (.onKey [98] 4) e.1 = true → ([97] : List Nat) <+: e.1 →
            e.1 = [97, 99] ∨ keyLt e.1 [97, 99] = true) ∧
      raxtree_prev ⟨[([97], 1), ([97, 98], 2), ([97, 99], 3), ([98], 4)], .onKey [98] 4⟩
        (mkStr [97]) =
        (1, ⟨[([97], 1), ([97, 98], 2), ([97, 99], 3), ([98], 4)], .onKey [97] 1⟩) ∧
      ptrToInt 3 ≠ 1 := by
  decide

/-- C5, amended. On an ordered trie `raxtree_prev` returns the payload of the
greatest key below the current position that is a byte-prefix of the reference,
skipping every predecessor that is not, and leaves the cursor on it; it reports
exhausted, returning `-1` with the cursor before the first key, only when no key
below the position is a byte-prefix of the reference, and one of the two cases
always applies. -/
theorem prev_skips_to_nearest (t : rax) (ht : t.ordered) (p : raxPos) (ref : List Nat) :
    (∀ e, IsNearestBelow t p ref e →
        raxtree_prev ⟨t, p⟩ (mkStr ref) = (ptrToInt e.2, ⟨t, .onKey e.1 e.2⟩)) ∧
      ((∀ e ∈ t, keyBelow p e.1 = true → ¬ e.1 <+: ref) →
        raxtree_prev ⟨t, p⟩ (mkStr ref) = (-1, ⟨t, .beforeFirst⟩)) ∧
      ((∃ e, IsNearestBelow t p ref e) ∨ (∀ e ∈ t, keyBelow p e.1 = true → ¬ e.1 <+: ref)) := by
  refine ⟨?_, ?_, ?_⟩
  · intro e he
    rw [raxtree_prev_ordered t ht, getLast_of_IsNearestBelow t ht p ref e he]
  · intro hnone
    have : (entriesBelow t p).filter (fun x => decide (x.1 <+: ref)) = [] := by
      apply List.filter_eq_nil_iff.2
      intro a ha
      have ha2 := List.mem_filter.1 ha
      simpa using hnone a ha2.1 (by simpa using ha2.2)
    rw [raxtree_prev_ordered t ht, this]
    rfl
  · cases hl : ((entriesBelow t p).filter (fun x => decide (x.1 <+: ref))).getLast? with
    | none =>
      right
      intro e he hb hp
      have : e ∈ (entriesBelow t p).filter (fun x => decide (x.1 <+: ref)) :=
        List.mem_filter.2 ⟨List.mem_filter.2 ⟨he, by simpa using hb⟩, by simpa using hp⟩
      rw [List.getLast?_eq_none_iff.1 hl] at this
      simp at this
    | some m =>
      left
      obtain ⟨l, hl2⟩ := List.getLast?_eq_some_iff.1 hl
      have hm := List.mem_filter.1 (List.mem_of_getLast?_eq_some hl)
      have hm2 := List.mem_filter.1 hm.1
      have hpw : ((entriesBelow t p).filter (fun x => decide (x.1 <+: ref))).Pairwise
          (fun a b => keyLt a.1 b.1 = true) :=
        List.Pairwise.filter _ (ordered_entriesBelow t ht p)
      rw [hl2] at hpw
      refine ⟨m, hm2.1, by simpa using hm2.2, by simpa using hm.2, ?_⟩
      intro e he hb hp
      have hmem : e ∈ l ++ [m] := by
        rw [← hl2]
        exact List.mem_filter.2 ⟨List.mem_filter.2 ⟨he, by simpa using hb⟩, by simpa using hp⟩
      rcases List.mem_append.1 hmem with h | h
      · exact Or.inr ((List.pairwise_append.1 hpw).2.2 e h m (List.mem_singleton_self m))
      · rw [List.mem_singleton.1 h]
        exact Or.inl rfl

theorem prev_skips_to_nearest_witness :
    rax.ordered [([97], 1), ([97, 98], 2), ([97, 99], 3), ([98], 4)] ∧
      IsNearestBelow [([97], 1), ([97, 98], 2), ([97, 99], 3), ([98], 4)] (.onKey [98] 4) [97]
        ([97], 1) ∧
      raxtree_prev ⟨[([97], 1), ([97, 98], 2), ([97, 99], 3), ([98], 4)], .onKey [98] 4⟩
        (mkStr [97]) =
        (1, ⟨[([97], 1), ([97, 98], 2), ([97, 99], 3), ([98], 4)], .onKey [97] 1⟩) :=
  ⟨by unfold rax.ordered; decide, by unfold IsNearestBelow; decide,
    (prev_skips_to_nearest [([97], 1), ([97, 98], 2), ([97, 99], 3), ([98], 4)]
      (by unfold rax.ordered; decide) (.onKey [98] 4) [97]).1 ([97], 1)
      (by unfold IsNearestBelow; decide)⟩

/-! ## Ordered traversal -/

theorem mem_raxInsert (t : rax) (k : Key) (d : Ptr) (x : Key × Ptr)
    (h : x ∈ (raxInsert t k d).2) : x = (k, d) ∨ x ∈ t := by
  induction t with
  | nil => simpa [raxInsert] using h
  | cons e rest ih =>
    obtain ⟨k', d'⟩ := e
    unfold raxInsert at h
    by_cases h1 : keyLt k k' = true
    · simp only [h1, if_true, List.mem_cons] at h
      rcases h with h | h | h
      · exact Or.inl h
      · exact Or.inr (by simp [h])
      · exact Or.inr (by simp [h])
    · by_cases h2 : k = k'
      · subst h2
        simp only [keyLt_irrefl, Bool.false_eq_true, if_true, if_false, List.mem_cons] at h
        rcases h with h | h
        · exact Or.inl h
        · exact Or.inr (by simp [h])
      · rw [if_neg h1, if_neg h2] at h
        rcases List.mem_cons.1 h with h3 | h3
        · exact Or.inr (by simp [h3])
        · rcases ih h3 with h4 | h4
          · exact Or.inl h4
          · exact Or.inr (by simp [h4])

/-- Inserting into an ordered trie leaves it ordered. -/
theorem raxInsert_ordered (t : rax) (ht : t.ordered) (k : Key) (d : Ptr) :
    rax.ordered (raxInsert t k d).2 := by
  induction t with
  | nil => simp [raxInsert, rax.ordered]
  | cons e rest ih =>
    obtain ⟨k', d'⟩ := e
    have hcons := List.pairwise_cons.1 ht
    unfold raxInsert
    by_cases h1 : keyLt k k' = true
    · simp only [h1, if_true]
      apply List.pairwise_cons.2
      refine ⟨?_, ht⟩
      intro x hx
      rcases List.mem_cons.1 hx with hx | hx
      · rw [hx]; exact h1
      · exact keyLt_trans k k' x.1 h1 (hcons.1 x hx)
    · by_cases h2 : k = k'
      · subst h2
        simp only [keyLt_irrefl, Bool.false_eq_true, if_true, if_false]
        exact List.pairwise_cons.2 ⟨hcons.1, hcons.2⟩
      · simp only [h1, h2, if_false]
        have hlt : keyLt k' k = true := by
          rcases keyLt_total k k' with h | h | h
          · exact absurd h h1
          · exact absurd h h2
          · exact h
        apply List.pairwise_cons.2
        refine ⟨?_, ih hcons.2⟩
        intro x hx
        rcases mem_raxInsert rest k d x hx with hx | hx
        · rw [hx]; exact hlt
        · exact hcons.1 x hx

/-- Removing a key from an ordered trie leaves it ordered. -/
theorem raxRemove_ordered (t : rax) (ht : t.ordered) (k : Key) :
    rax.ordered (raxRemove t k).2 := by
  unfold raxRemove
  split
  · exact List.Pairwise.filter _ ht
  · exact ht

theorem insertAll_ordered (ops : List (Option rt_str_t × Int)) :
    ∀ (t t2 : rax), t.ordered → insertAll (some t) ops = some t2 → t2.ordered := by
  induction ops with
  | nil =>
    intro t t2 ht h
    simp only [insertAll, Option.some.injEq] at h
    rw [← h]; exact ht
  | cons op ops ih =>
    obtain ⟨b, v⟩ := op
    intro t t2 ht h
    unfold insertAll at h
    cases b with
    | none => exact ih t t2 ht h
    | some b =>
      by_cases hb : b.buf = none
      · simp only [raxtree_insert, hb] at h
        exact ih t t2 ht h
      · rw [raxtree_insert_some t b hb] at h
        exact ih _ t2 (raxInsert_ordered t ht _ _) h

/-- In an ordered trie the entries are exactly the key-to-payload mapping that
`raxFind` reads. -/
theorem mem_iff_raxFind (t : rax) (ht : t.ordered) (k : Key) (d : Ptr) :
    (k, d) ∈ t ↔ raxFind t k = some d := by
  induction t with
  | nil => simp [raxFind]
  | cons e rest ih =>
    obtain ⟨k', d'⟩ := e
    have hcons := List.pairwise_cons.1 ht
    unfold raxFind
    by_cases h : k = k'
    · subst h
      simp only [if_true, List.mem_cons, Prod.mk.injEq, true_and, Option.some.injEq]
      constructor
      · rintro (h | h)
        · exact h.symm
        · have := hcons.1 (k, d) h
          rw [keyLt_irrefl] at this
          exact absurd this (by simp)
      · intro h
        exact Or.inl h.symm
    · simp only [h, if_false, List.mem_cons, Prod.mk.injEq, false_and, false_or]
      exact ih hcons.2

theorem entriesAbove_beforeFirst (t : rax) : entriesAbove t .beforeFirst = t := by
  simp [entriesAbove, keyAbove]

theorem entriesBelow_afterLast (t : rax) : entriesBelow t .afterLast = t := by
  simp [entriesBelow, keyBelow]

/-- Successive `raxtree_next` calls over entries that all pass the reference
test return their payloads in ascending order, then `-1`. -/
theorem nextRun_ordered (t : rax) (ht : t.ordered) (ref : List Nat) :
    ∀ (l : List (Key × Ptr)) (p : raxPos), entriesAbove t p = l →
      (∀ e ∈ l, e.1 <+: ref) →
      nextRun (l.length + 1) ⟨t, p⟩ (mkStr ref) = l.map (fun e => ptrToInt e.2) ++ [-1] := by
  intro l
  induction l with
  | nil =>
    intro p hl _
    simp [nextRun, raxtree_next_ordered, hl]
  | cons e l ih =>
    intro p hl hall
    have he : e.1 <+: ref := hall e (List.mem_cons_self _ _)
    have hrec := ih (.onKey e.1 e.2) (entriesAbove_step t ht p l e hl)
      (fun x hx => hall x (List.mem_cons_of_mem _ hx))
    rw [List.length_cons]
    unfold nextRun
    rw [raxtree_next_ordered, hl]
    simp only [List.head?_cons, he, if_true, List.map_cons, List.cons_append]
    rw [hrec]

/-- Successive `raxtree_prev` calls over entries that all pass the reference
test return their payloads in descending order, then `-1`. -/
theorem prevRun_ordered (t : rax) (ht : t.ordered) (ref : List Nat) :
    ∀ (l : List (Key × Ptr)) (p : raxPos), entriesBelow t p = l →
      (∀ e ∈ l, e.1 <+: ref) →
      prevRun (l.length + 1) ⟨t, p⟩ (mkStr ref)
        = l.reverse.map (fun e => ptrToInt e.2) ++ [-1] := by
  intro l
  induction l using List.reverseRecOn with
  | nil =>
    intro p hl _
    simp [prevRun, raxtree_prev_ordered t ht, hl]
  | append_singleton l e ih =>
    intro p hl hall
    have he : e.1 <+: ref := hall e (by simp)
    have hrec := ih (.onKey e.1 e.2) (entriesBelow_step t ht p l e hl)
      (fun x hx => hall x (List.mem_append_left _ hx))
    have hfil : (l ++ [e]).filter (fun x => decide (x.1 <+: ref)) = l ++ [e] :=
      List.filter_eq_self.2 (fun a ha => by simpa using hall a ha)
    rw [List.length_append, List.length_singleton]
    unfold prevRun
    rw [raxtree_prev_ordered t ht, hl, hfil, List.getLast?_concat]
    simp only [List.reverse_append, List.reverse_singleton, List.singleton_append,
      List.map_cons, List.cons_append, List.nil_append]
    rw [hrec]

theorem entriesBelow_of_mem (t : rax) (p : raxPos) (e : Key × Ptr)
    (hmem : e ∈ entriesBelow t p) :
    entriesBelow t (.onKey e.1 e.2)
      = List.filter (fun x => keyLt x.1 e.1) (entriesBelow t p) := by
  have hbelow : keyBelow p e.1 = true := by simpa using (List.mem_filter.1 hmem).2
  unfold entriesBelow
  rw [List.filter_filter]
  apply List.filter_congr
  intro x _
  have hk : keyBelow (.onKey e.1 e.2) x.1 = keyLt x.1 e.1 := rfl
  rw [hk]
  cases hx : keyLt x.1 e.1 with
  | false => rfl
  | true =>
    rw [keyBelow_of_keyLt p x.1 e.1 hx hbelow]
    rfl

/-- On an ordered trie, stepping down to the last entry below a position that
passes the reference test leaves exactly the earlier passing entries below the
new position. -/
theorem passingBelow_step (t : rax) (ht : t.ordered) (ref : List Nat) (p : raxPos)
    (l : List (Key × Ptr)) (e : Key × Ptr)
    (h : (entriesBelow t p).filter (fun x => decide (x.1 <+: ref)) = l ++ [e]) :
    (entriesBelow t (.onKey e.1 e.2)).filter (fun x => decide (x.1 <+: ref)) = l := by
  have hmem : e ∈ (entriesBelow t p).filter (fun x => decide (x.1 <+: ref)) := by
    rw [h]; simp
  have hpw : ((entriesBelow t p).filter (fun x => decide (x.1 <+: ref))).Pairwise
      (fun a b => keyLt a.1 b.1 = true) := List.Pairwise.filter _ (ordered_entriesBelow t ht p)
  rw [h] at hpw
  rw [entriesBelow_of_mem t p e (List.mem_filter.1 hmem).1]
  have hswap : List.filter (fun x => decide (x.1 <+: ref))
        (List.filter (fun x => keyLt x.1 e.1) (entriesBelow t p))
      = List.filter (fun x => keyLt x.1 e.1)
        (List.filter (fun x => decide (x.1 <+: ref)) (entriesBelow t p)) := by
    rw [List.filter_filter, List.filter_filter]
    apply List.filter_congr
    intro x _
    exact Bool.and_comm _ _
  rw [hswap, h, List.filter_append]
  have h1 : List.filter (fun x => keyLt x.1 e.1) l = l := by
    apply List.filter_eq_self.2
    intro a ha
    exact (List.pairwise_append.1 hpw).2.2 a ha e (List.mem_singleton_self e)
  have h2 : List.filter (fun x => keyLt x.1 e.1) [e] = [] := by
    simp [keyLt_irrefl]
  rw [h1, h2, List.append_nil]

/-- Successive `raxtree_next` calls on an ordered trie walk the entries above
the cursor in ascending order, one per call, returning the payload of an entry
whose key is a byte-prefix of the reference and `-1` for any other entry, and
`-1` once more after the last entry. -/
theorem nextSteps_ordered (t : rax) (ht : t.ordered) (ref : List Nat) :
    ∀ (l : List (Key × Ptr)) (p : raxPos), entriesAbove t p = l →
      nextSteps (l.length + 1) ⟨t, p⟩ (mkStr ref)
        = l.map (fun e => (if e.1 <+: ref then ptrToInt e.2 else -1, raxPos.onKey e.1 e.2))
          ++ [(-1, raxPos.afterLast)] := by
  intro l
  induction l with
  | nil =>
    intro p hl
    simp [nextSteps, raxtree_next_ordered, hl]
  | cons e l ih =>
    intro p hl
    have hrec := ih (.onKey e.1 e.2) (entriesAbove_step t ht p l e hl)
    rw [List.length_cons]
    unfold nextSteps
    rw [raxtree_next_ordered, hl]
    simp only [List.head?_cons, List.map_cons, List.cons_append]
    rw [hrec]

/-- Successive `raxtree_prev` calls on an ordered trie return the payloads of
exactly the entries below the cursor whose key is a byte-prefix of the
reference, in descending order, landing on each in turn, and then `-1`. -/
theorem prevSteps_ordered (t : rax) (ht : t.ordered) (ref : List Nat) :
    ∀ (l : List (Key × Ptr)) (p : raxPos),
      (entriesBelow t p).filter (fun x => decide (x.1 <+: ref)) = l →
      prevSteps (l.length + 1) ⟨t, p⟩ (mkStr ref)
        = l.reverse.map (fun e => (ptrToInt e.2, raxPos.onKey e.1 e.2))
          ++ [(-1, raxPos.beforeFirst)] := by
  intro l
  induction l using List.reverseRecOn with
  | nil =>
    intro p hl
    simp [prevSteps, raxtree_prev_ordered t ht, hl]
  | append_singleton l e ih =>
    intro p hl
    have hrec := ih (.onKey e.1 e.2) (passingBelow_step t ht ref p l e hl)
    rw [List.length_append, List.length_singleton]
    unfold prevSteps
    rw [raxtree_prev_ordered t ht, hl, List.getLast?_concat]
    simp only [List.reverse_append, List.reverse_singleton, List.singleton_append,
      List.map_cons, List.cons_append, List.nil_append]
    rw [hrec]

/-- C7 fails with the empty reference.  With the keys `"a"` and `"b"` inserted
(payloads 1 and 2), the empty prefix is a byte-prefix of both keys, yet every
`raxtree_next` from "before first" and every `raxtree_prev` from "after last"
returns `-1`: no payload is produced. -/
theorem traversal_with_empty_reference_yields_nothing :
    insertAll raxtree_new [(some (mkStr [98]), 2), (some (mkStr [97]), 1)]
        = some [([97], 1), ([98], 2)] ∧
      (([] : List Nat) <+: [97] ∧ ([] : List Nat) <+: [98]) ∧
      nextRun 3 ⟨[([97], 1), ([98], 2)], .beforeFirst⟩ (mkStr []) = [-1, -1, -1] ∧
      prevRun 3 ⟨[([97], 1), ([98], 2)], .afterLast⟩ (mkStr []) = [-1, -1, -1] := by
  decide

/-- C7, amended. For every sequence of `raxtree_insert` calls on a new trie and
every reference buffer: the stored entries are in strictly ascending key order
and are exactly the key-to-payload mapping; `raxtree_next` called repeatedly
from "before first" moves the cursor through all stored keys in that order,
one key per call with none repeated or left out, returning the payload of a key
that is a byte-prefix of the reference and `-1` for a key that is not, and `-1`
after the last key; `raxtree_prev` called repeatedly from "after last" returns
the payloads of exactly the stored keys that are byte-prefixes of the
reference, in descending key order, and then `-1`.  When every stored key is a
byte-prefix of the reference, both directions return the payloads of all stored
keys. -/
theorem ordered_traversal (ops : List (Option rt_str_t × Int)) (ref : List Nat) (t : rax)
    (hbuilt : insertAll raxtree_new ops = some t) :
    t.Pairwise (fun a b => keyLt a.1 b.1 = true) ∧
      (∀ k d, (k, d) ∈ t ↔ raxFind t k = some d) ∧
      nextSteps (t.length + 1) ⟨t, .beforeFirst⟩ (mkStr ref)
        = t.map (fun e => (if e.1 <+: ref then ptrToInt e.2 else -1, raxPos.onKey e.1 e.2))
          ++ [(-1, raxPos.afterLast)] ∧
      prevSteps ((t.filter (fun e => decide (e.1 <+: ref))).length + 1) ⟨t, .afterLast⟩
          (mkStr ref)
        = (t.filter (fun e => decide (e.1 <+: ref))).reverse.map
            (fun e => (ptrToInt e.2, raxPos.onKey e.1 e.2))
          ++ [(-1, raxPos.beforeFirst)] ∧
      ((∀ k d, raxFind t k = some d → k <+: ref) →
        nextRun (t.length + 1) ⟨t, .beforeFirst⟩ (mkStr ref)
          = t.map (fun e => ptrToInt e.2) ++ [-1] ∧
        prevRun (t.length + 1) ⟨t, .afterLast⟩ (mkStr ref)
          = t.reverse.map (fun e => ptrToInt e.2) ++ [-1]) := by
  have ht : t.ordered :=
    insertAll_ordered ops raxNew t (by simp [raxNew, rax.ordered]) hbuilt
  refine ⟨ht, fun k d => mem_iff_raxFind t ht k d,
    nextSteps_ordered t ht ref t .beforeFirst (entriesAbove_beforeFirst t),
    prevSteps_ordered t ht ref _ .afterLast (by rw [entriesBelow_afterLast]), ?_⟩
  intro href
  have hall : ∀ e ∈ t, e.1 <+: ref := fun e he =>
    href e.1 e.2 ((mem_iff_raxFind t ht e.1 e.2).1 he)
  exact ⟨nextRun_ordered t ht ref t .beforeFirst (entriesAbove_beforeFirst t) hall,
    prevRun_ordered t ht ref t .afterLast (entriesBelow_afterLast t) hall⟩

theorem ordered_traversal_witness :
    insertAll raxtree_new
        [(some (mkStr [98]), 4), (some (mkStr [97, 99]), 3), (some (mkStr [97]), 1),
          (some (mkStr [97, 98]), 2)]
        = some [([97], 1), ([97, 98], 2), ([97, 99], 3), ([98], 4)] ∧
      nextSteps 5 ⟨[([97], 1), ([97, 98], 2), ([97, 99], 3), ([98], 4)], .beforeFirst⟩
          (mkStr [97, 98])
        = [(1, .onKey [97] 1), (2, .onKey [97, 98] 2), (-1, .onKey [97, 99] 3),
            (-1, .onKey [98] 4), (-1, .afterLast)] ∧
      prevSteps 3 ⟨[([97], 1), ([97, 98], 2), ([97, 99], 3), ([98], 4)], .afterLast⟩
          (mkStr [97, 98])
        = [(2, .onKey [97, 98] 2), (1, .onKey [97] 1), (-1, .beforeFirst)] := by
  have h := ordered_traversal
    [(some (mkStr [98]), 4), (some (mkStr [97, 99]), 3), (some (mkStr [97]), 1),
      (some (mkStr [97, 98]), 2)] [97, 98]
    [([97], 1), ([97, 98], 2), ([97, 99], 3), ([98], 4)] (by decide)
  refine ⟨by decide, ?_, ?_⟩
  · exact h.2.2.1.trans (by decide)
  · exact h.2.2.2.1.trans (by decide)

end RaxTree
